import Mathlib

/-!
Shallow embedding of the geekfactory Shell library (`src/Shell.c`, the richer
variant compiled with `CONFIG_SHELL_COMMAND_HISTORY != 1` and without
`ARDUINO`), together with theorems checking the natural-language specification
against it.

C strings are modelled as `List Char`; the NUL terminator is explicit where the
code manipulates it.  C buffers are fixed-length `List Char` values mutated by
`List.set` and read by `List.getD` (the default `'\x00'` models the
zero-initialised global arrays).  Machine integers are `Nat`/`Int` with
explicit reduction modulo `2 ^ 32` where the C code relies on `unsigned int`
reinterpretation.  Loops whose C termination argument is arithmetic are given
an explicit fuel parameter; every wrapper supplies fuel that provably dominates
the number of iterations the C loop performs, so on the wrappers the fuel is
never exhausted.
-/

namespace ShellC

/-- ASCII NUL, the C string terminator. -/
def NUL : Char := '\x00'

/-- `SHELL_ASCII_BEL` (0x07), the audible alert. -/
def BEL : Char := '\x07'

/-- `SHELL_ASCII_BS` (0x08), backspace. -/
def BS : Char := '\x08'

/-- `SHELL_ASCII_HT` (0x09), horizontal tab. -/
def HT : Char := '\x09'

/-- `SHELL_ASCII_CR` (0x0D), carriage return (enter). -/
def CR : Char := '\x0D'

/-- `SHELL_ASCII_ESC` (0x1B), escape. -/
def ESC : Char := '\x1b'

/-- `SHELL_ASCII_SP` (0x20), space. -/
def SP : Char := ' '

/-- `SHELL_ASCII_DEL` (0x7F), delete. -/
def DEL : Char := '\x7f'

/-!  ## Formatter (`shell_format` and its helpers, Shell.c lines 697-871) -/

/-- `a2d`: hexadecimal digit value of a character, `none` for the C return -1. -/
def a2d (ch : Char) : Option Nat :=
  if '0' ≤ ch ∧ ch ≤ '9' then some (ch.toNat - '0'.toNat)
  else if 'a' ≤ ch ∧ ch ≤ 'f' then some (ch.toNat - 'a'.toNat + 10)
  else if 'A' ≤ ch ∧ ch ≤ 'F' then some (ch.toNat - 'A'.toNat + 10)
  else none

/-- `a2i`: accumulate digits starting from `ch`, reading further characters
from `src`.  Mirrors the C loop `while ((digit = a2d(ch)) >= 0) { if (digit >
base) break; num = num * base + digit; ch = *p++; }`.  When `src` is exhausted
the C code reads the string's NUL terminator into `ch` and exits on the next
test; we return `NUL` directly.  Returns the final `ch`, the advanced source
pointer and the accumulated number. -/
def a2i (ch : Char) (src : List Char) (base num : Nat) : Char × List Char × Nat :=
  match a2d ch with
  | none => (ch, src, num)
  | some digit =>
    if base < digit then (ch, src, num)
    else
      match src with
      | [] => (NUL, [], num * base + digit)
      | c :: cs => a2i c cs base (num * base + digit)

/-- First loop of `ui2a`: `while (num / d >= base) d *= base;`.  The C loop
terminates because `d` grows geometrically (for the bases 10 and 16 actually
used); `fuel = num + 1` dominates the iteration count, since the loop runs at
most `log_base num + 1 ≤ num` times for `base ≥ 2`. -/
def ui2aD : Nat → Nat → Nat → Nat → Nat
  | 0, _, _, d => d
  | fuel + 1, base, num, d => if base ≤ num / d then ui2aD fuel base num (d * base) else d

/-- The character emitted for a digit:
`dgt + (dgt < 10 ? '0' : (uc ? 'A' : 'a') - 10)`. -/
def digitChar (uc : Bool) (dgt : Nat) : Char :=
  if dgt < 10 then Char.ofNat ('0'.toNat + dgt)
  else Char.ofNat ((if uc then 'A'.toNat else 'a'.toNat) - 10 + dgt)

/-- Second loop of `ui2a`: emit digits most-significant first by repeated
division.  `n` is the emitted-anything flag.  The C loop terminates because
`d /= base` strictly decreases `d` for `base ≥ 2`; `fuel = d + 1` dominates the
iteration count. -/
def ui2aLoop : Nat → Nat → Bool → Nat → Nat → Bool → List Char
  | 0, _, _, _, _, _ => []
  | fuel + 1, base, uc, num, d, n =>
    if d = 0 then []
    else
      let dgt := num / d
      let num2 := num % d
      let d2 := d / base
      if n ∨ 0 < dgt ∨ d2 = 0 then
        digitChar uc dgt :: ui2aLoop fuel base uc num2 d2 true
      else
        ui2aLoop fuel base uc num2 d2 n

/-- `ui2a`: render an unsigned integer in the given base (without the
terminating NUL the C code appends into the scratch buffer). -/
def ui2a (num base : Nat) (uc : Bool) : List Char :=
  let d := ui2aD (num + 1) base num 1
  ui2aLoop (d + 1) base uc num d false

/-- `i2a`: signed decimal rendering; a negative value emits `'-'` then the
magnitude. -/
def i2a (num : Int) : List Char :=
  if num < 0 then '-' :: ui2a (-num).toNat 10 false else ui2a num.toNat 10 false

/-- Reinterpretation of a C `int` argument as `unsigned int`
(two's complement, 32-bit). -/
def toUInt (i : Int) : Nat := (i % ((2 : Int) ^ 32)).toNat

/-- Reduction of an integer argument to the C `int` range (two's complement,
32-bit). -/
def toIntC (i : Int) : Int := (i + 2 ^ 31) % 2 ^ 32 - 2 ^ 31

/-- `(char) va_arg(va, int)`: the low byte of the integer argument. -/
def charOfInt (i : Int) : Char := Char.ofNat ((i % 256).toNat)

/-- `putchw`: pad with the fill character up to the field width, then emit the
buffer.  The C code walks `bf` decrementing `n` once per character while
`n > 0`, then emits `fc` while `n > 0` remains; for a NUL-free `bf` that is
exactly `max (n - strlen bf) 0` fill characters followed by `bf`. -/
def putchw (n : Nat) (z : Bool) (bf : List Char) : List Char :=
  let fc := if z then '0' else ' '
  List.replicate (n - bf.length) fc ++ bf

/-- One formatter argument.  The C code uses varargs; the spec models them as a
tagged union consumed positionally.  A missing or type-mismatched argument is
undefined behaviour in C; here it yields a default value. -/
inductive FmtArg where
  | int (i : Int)
  | str (s : List Char)
  | chr (c : Char)
deriving DecidableEq

/-- `va_arg(va, int)` / `va_arg(va, unsigned int)`. -/
def argInt : List FmtArg → Int × List FmtArg
  | [] => (0, [])
  | .int i :: rest => (i, rest)
  | .chr c :: rest => ((c.toNat : Int), rest)
  | .str _ :: rest => (0, rest)

/-- `va_arg(va, char*)`. -/
def argStr : List FmtArg → List Char × List FmtArg
  | [] => ([], [])
  | .str s :: rest => (s, rest)
  | .int _ :: rest => ([], rest)
  | .chr _ :: rest => ([], rest)

/-- The leading-zero flag read of `shell_format` (lines 809-812): when the
character after the marker is `'0'`, consume it and read the next character
(the terminator, modelled as `NUL`, if the template ends there). -/
def flagRead (c1 : Char) (rest1 : List Char) : Char × List Char :=
  if c1 = '0' then
    match rest1 with
    | [] => (NUL, [])
    | d :: ds => (d, ds)
  else (c1, rest1)

/-- The width read of `shell_format` (lines 813-815): a leading decimal digit
sends the scan through `a2i`. -/
def widthRead (c2 : Char) (rest2 : List Char) : Char × List Char × Nat :=
  if '0' ≤ c2 ∧ c2 ≤ '9' then a2i c2 rest2 10 0 else (c2, rest2, 0)

/-- The verb switch of `shell_format` (lines 822-866).  Returns the emitted
characters, the remaining template, and the remaining argument list — the
latter is `none` when the verb aborts formatting (`case 0: goto abort;`), in
which case the remaining template is not processed.  Note that the `default:`
branch of the switch merely `break`s: an unrecognized verb is consumed without
output and formatting continues; `case '%'` emits the marker and falls through
to `default`. -/
def verbSwitch (c3 : Char) (w : Nat) (lz : Bool) (rest3 : List Char)
    (args : List FmtArg) : List Char × List Char × Option (List FmtArg) :=
  if c3 = NUL then ([], rest3, none)
  else if c3 = 'u' then
    (putchw w lz (ui2a (toUInt (argInt args).1) 10 false), rest3, some (argInt args).2)
  else if c3 = 'd' then
    (putchw w lz (i2a (toIntC (argInt args).1)), rest3, some (argInt args).2)
  else if c3 = 'x' ∨ c3 = 'X' then
    (putchw w lz (ui2a (toUInt (argInt args).1) 16 (c3 = 'X')), rest3,
      some (argInt args).2)
  else if c3 = 'c' then
    ([charOfInt (argInt args).1], rest3, some (argInt args).2)
  else if c3 = 's' then
    (putchw w false (argStr args).1, rest3, some (argStr args).2)
  else if c3 = '%' then
    (['%'], rest3, some args)
  else
    ([], rest3, some args)

/-- Width read followed by the verb switch. -/
def fmtAfterFlag (lz : Bool) (p : Char × List Char) (args : List FmtArg) :
    List Char × List Char × Option (List FmtArg) :=
  let t := widthRead p.1 p.2
  verbSwitch t.1 t.2.2 lz t.2.1 args

/-- Processing of one `%` verb of `shell_format`, starting just after the
marker (Shell.c lines 802-866): the optional `'0'` flag, the optional decimal
width, then the verb switch. -/
def fmtVerb (rest : List Char) (args : List FmtArg) :
    List Char × List Char × Option (List FmtArg) :=
  match rest with
  | [] => ([], [], none)
  | c1 :: rest1 => fmtAfterFlag (c1 = '0') (flagRead c1 rest1) args

/-- Main loop of `shell_format`.  Each iteration consumes at least one template
character, so `fuel = fmt.length` suffices on the wrapper below. -/
def shellFormatGo : Nat → List Char → List FmtArg → List Char
  | 0, _, _ => []
  | fuel + 1, fmt, args =>
    match fmt with
    | [] => []
    | ch :: rest =>
      if ch = '%' then
        match fmtVerb rest args with
        | (out, _, none) => out
        | (out, rest3, some args2) => out ++ shellFormatGo fuel rest3 args2
      else ch :: shellFormatGo fuel rest args

/-- `shell_format`: render a template with its argument list, collecting the
characters passed to `shell_putc`. -/
def shellFormat (fmt : List Char) (args : List FmtArg) : List Char :=
  shellFormatGo fmt.length fmt args

/-!  ## Tokenizer (`shell_parse`, Shell.c lines 584-639)

The C function mutates the line buffer in place (writing NUL terminators) and
stores pointers into it in the `argv` array.  The buffer is modelled as a
`List Char`; `argv` pointers are offsets into that buffer, and every store into
`argv` is recorded in order in a `writes` list so that claims about the store
indices can be stated.  The value of `argv[k]` after the call is the offset of
its last recorded write. -/

/-- The mutable state of the `shell_parse` loop. -/
structure PSt where
  buf : List Char
  i : Nat
  argc : Nat
  toggle : Bool
  escape : Bool
  writes : List (Nat × Nat)
deriving DecidableEq

/-- The `for (i = 0; i < length && argc < maxargs; i++)` loop of `shell_parse`.
Each iteration advances `i` by one (the `'\0'` case sets `i = length` and the
loop exits), so `fuel = length + 1` dominates the iteration count.  In the
`'\\'` case the C code `continue`s, skipping the `escape = false` reset at the
bottom of the loop body. -/
def parseLoop (maxargs length : Nat) : Nat → PSt → PSt
  | 0, s => s
  | fuel + 1, s =>
    if s.i < length ∧ s.argc < maxargs then
      let c := s.buf.getD s.i NUL
      if c = NUL then
        -- case '\0': i = length; argc++;  (the loop then exits)
        { s with i := length, argc := s.argc + 1, escape := false }
      else if c = '\\' then
        parseLoop maxargs length fuel { s with escape := true, i := s.i + 1 }
      else if c = '"' then
        let s2 :=
          if s.escape = false then
            if s.toggle = false then
              { s with
                toggle := true
                buf := s.buf.set s.i NUL
                writes := s.writes ++ [(s.argc, s.i + 1)] }
            else
              { s with toggle := false, buf := s.buf.set s.i NUL }
          else s
        parseLoop maxargs length fuel { s2 with escape := false, i := s.i + 1 }
      else if c = ' ' then
        let s2 :=
          if s.toggle = false then
            { s with
              buf := s.buf.set s.i NUL
              argc := s.argc + 1
              writes := s.writes ++ [(s.argc + 1, s.i + 1)] }
          else s
        parseLoop maxargs length fuel { s2 with escape := false, i := s.i + 1 }
      else
        parseLoop maxargs length fuel { s with escape := false, i := s.i + 1 }
    else s

/-- Result of `shell_parse`: the mutated buffer, the returned argument count
and the recorded `argv` stores. -/
structure ParseOut where
  buf : List Char
  argc : Nat
  writes : List (Nat × Nat)
deriving DecidableEq

/-- `shell_parse` on a NUL-free line.  `length = strlen(buf) + 1`; the initial
store `argv[argc] = &buf[0]` is recorded before the loop. -/
def shellParse (line : List Char) (maxargs : Nat) : ParseOut :=
  let length := line.length + 1
  let s := parseLoop maxargs length (length + 1)
    { buf := line ++ [NUL], i := 0, argc := 0, toggle := false, escape := false,
      writes := [(0, 0)] }
  ⟨s.buf, s.argc, s.writes⟩

/-- The C-string value stored in a buffer: the characters before the first
NUL. -/
def strVal (a : List Char) : List Char := a.takeWhile (fun c => c ≠ NUL)

/-- The final value of `argv[k]`: the offset of the last recorded store to
index `k` (each `k < argc` is stored at least once). -/
def argvAt (writes : List (Nat × Nat)) (k : Nat) : Nat :=
  ((writes.filter (fun w => w.1 = k)).map (fun w => w.2)).getLastD 0

/-- The argument strings produced by `shell_parse`: for each `k < argc`, the
C string at offset `argv[k]` in the mutated buffer. -/
def parsedArgs (line : List Char) (maxargs : Nat) : List (List Char) :=
  let p := shellParse line maxargs
  (List.range p.argc).map (fun k => strVal (p.buf.drop (argvAt p.writes k)))

/-!  ## Escape resolver (`shell_process_escape`, Shell.c lines 641-670) -/

/-- The inner loop of `shell_process_escape` on one argument.  `sl` is the
argument's `strlen`, computed before the loop; `j` is the write position,
`r` the read-ahead (`readindex`).  Reads use `getD` with default NUL: reads
past the end of the modelled buffer correspond to the reads past the
terminator the C code performs once `readindex ≥ 2`; those reads only affect
buffer cells at or after the first NUL of the result, which are not part of
the resulting C string.  The loop runs exactly `sl` iterations, so
`fuel = sl` suffices. -/
def escLoop (sl : Nat) : Nat → List Char → Nat → Nat → List Char
  | 0, buf, _, _ => buf
  | fuel + 1, buf, j, r =>
    if j < sl then
      let c0 := buf.getD (j + r) NUL
      let hit := c0 = '\\' ∧ buf.getD (j + r + 1) NUL = '"'
      let buf2 := if hit then buf.set j '"' else buf
      let r2 := if hit then r + 1 else r
      let buf3 := if 0 < r2 then buf2.set j (buf2.getD (j + r2) NUL) else buf2
      escLoop sl fuel buf3 (j + 1) r2
    else buf

/-- `shell_process_escape` on one argument string: run the loop over the
argument's buffer (argument characters followed by the terminator) and read
back the resulting C string. -/
def processEscapeArg (a : List Char) : List Char :=
  strVal (escLoop a.length a.length (a ++ [NUL]) 0 0)

/-- `shell_process_escape`: the outer loop applies the per-argument pass to
each of the `argc` arguments (`readindex` is reset between arguments, and the
argument segments produced by `shell_parse` are disjoint). -/
def processEscape (args : List (List Char)) : List (List Char) :=
  args.map processEscapeArg

/-- The escape resolution described by the spec (section 4.4): scanning left to
right, each backslash-double-quote pair collapses to a literal double quote;
a backslash followed by anything else is kept as is. -/
def specResolve : List Char → List Char
  | [] => []
  | '\\' :: '"' :: rest => '"' :: specResolve rest
  | c :: rest => c :: specResolve rest

/-- Reference function for the equivalence proof: the value written by the
`shell_process_escape` loop at positions `j, j+1, ...` as a function of the
buffer suffix from the read position, padded with the NULs the loop writes
once the suffix is exhausted.  `n` is the number of remaining iterations. -/
def escRunPad : List Char → Nat → List Char
  | _, 0 => []
  | [], n + 1 => NUL :: escRunPad [] n
  | c :: rest, n + 1 =>
    if c = '\\' ∧ rest.head? = some '"' then '"' :: escRunPad rest.tail n
    else c :: escRunPad rest n

/-!  ## History ring commit (Shell.c lines 517-537 of `shell_task`)

The commit decision compares C strings (`strcmp`), so this model works at the
level of the string values stored in the ring slots.  `N` is
`CONFIG_SHELL_COMMAND_HISTORY`. -/

/-- The ring state touched by the history commit: the slot string values and
the indices `currentBuf`, `oldestBuf` plus the `bufferWrapped` flag. -/
structure RingSt where
  slots : List String
  current : Nat
  oldest : Nat
  wrapped : Bool
deriving DecidableEq

/-- The ring state right after `shell_init`: all slots empty, indices zero,
not wrapped. -/
def ringInit (N : Nat) : RingSt := ⟨List.replicate N "", 0, 0, false⟩

/-- The slot index holding the immediately previous entry:
`currentBuf == 0 ? CONFIG_SHELL_COMMAND_HISTORY - 1 : currentBuf - 1`. -/
def prevSlot (N cur : Nat) : Nat := if cur = 0 then N - 1 else cur - 1

/-- One line completion's effect on the ring.  At the carriage return the
typed line (`line`, with `count = line.length`) is already NUL-terminated in
`shellbuf[currentBuf]`; the commit then advances the indices unless the line
is empty or, when history is non-empty, equal to the previous entry. -/
def ringCommit (N : Nat) (st : RingSt) (line : String) : RingSt :=
  let slots1 := st.slots.set st.current line
  if line.length ≠ 0 ∧
      (st.current = st.oldest ∨ slots1.getD (prevSlot N st.current) "" ≠ line) then
    let cur2 := if st.current = N - 1 then 0 else st.current + 1
    let wrapped2 := if st.current = N - 1 then true else st.wrapped
    let old2 :=
      if wrapped2 then (if st.oldest = N - 1 then 0 else st.oldest + 1) else st.oldest
    ⟨slots1, cur2, old2, wrapped2⟩
  else
    ⟨slots1, st.current, st.oldest, st.wrapped⟩

/-- The stored history, oldest first: the slot range from `oldestBuf` up to
but excluding `currentBuf`, in ring order. -/
def histList (st : RingSt) : List String :=
  if st.current < st.oldest then st.slots.drop st.oldest ++ st.slots.take st.current
  else (st.slots.drop st.oldest).take (st.current - st.oldest)

/-- Abstract model of the commit, used as the refinement target: append unless
empty or equal to the last stored entry; beyond capacity `cap = N - 1` the
oldest entry is dropped. -/
def modelCommit (cap : Nat) (l : List String) (line : String) : List String :=
  if line = "" ∨ l.getLast? = some line then l
  else if cap ≤ l.length then (l ++ [line]).drop 1
  else l ++ [line]

/-- Structural invariant of the ring state maintained by commits. -/
def RingInv (N : Nat) (st : RingSt) : Prop :=
  st.slots.length = N ∧ st.current < N ∧
    (if st.wrapped then st.oldest = (st.current + 1) % N else st.oldest = 0)

/-!  ## The input state machine (`shell_task`, Shell.c lines 339-549)

The per-character processing, including VT100 escape decoding, history
navigation, line editing and the completed-line path
(tokenize → escape-resolve → dispatch → history commit → prompt).
Configuration constants and the command table are bundled in `Cfg`; the
mutable globals (and the function-static `escapeMode`/`csiMode`) in `St`.
Each ring slot and the scratchpad are fixed-length `M`-character arrays.
The observable behaviour — characters handed to `shell_putc` and command
handler invocations — is returned as an event list. -/

/-- One command-table entry (`struct shell_command_entry`): the handler
function pointer (`none` models a null pointer; a `Nat` identifies the bound
handler) and the command name pointer. -/
structure CmdEntry where
  program : Option Nat
  name : Option (List Char)
deriving DecidableEq

/-- Configuration: `CONFIG_SHELL_MAX_INPUT`, `CONFIG_SHELL_COMMAND_HISTORY`,
`CONFIG_SHELL_MAX_COMMAND_ARGS`, and the registered command table (of length
`CONFIG_SHELL_MAX_COMMANDS`). -/
structure Cfg where
  M : Nat
  N : Nat
  maxargs : Nat
  table : List CmdEntry

/-- Observable events of one `shell_task` call: a character passed to
`shell_putc`, or a handler invocation with its argument count and argument
strings. -/
inductive Ev where
  | out (c : Char)
  | invoke (program : Nat) (argc : Nat) (argv : List (List Char))
deriving DecidableEq

/-- The mutable state of the shell between `shell_task` calls. -/
structure St where
  escapeMode : Bool
  csiMode : Bool
  currentBuf : Nat
  historyBuf : Nat
  oldestBuf : Nat
  wrapped : Bool
  count : Nat
  scratchpad : List Char
  bufs : List (List Char)
deriving DecidableEq

/-- `shell_print`: each character goes to `shell_putc`. -/
def printS (s : List Char) : List Ev := s.map Ev.out

/-- The `"\r\n"` pair `shell_println` appends. -/
def crlf : List Char := ['\r', '\n']

/-- The prompt string printed by `shell_prompt`. -/
def promptStr : List Char := "device>".data

/-- `strcpy(dst, src)` into a fixed-length buffer: the source characters and a
terminator overwrite the front of `dst`, the tail keeps its old contents.
(The C code assumes the source fits; `take` keeps the model total.) -/
def strcpyA (dst src : List Char) : List Char :=
  (src ++ NUL :: dst.drop (src.length + 1)).take dst.length

/-- `shell_clear_command`: while `count > 0`, echo a destructive backspace
(`BS SP BS`), NUL the character at `count - 1` and decrement `count`.
Arguments: the current slot array and `count`; returns the cleared array and
the echoed events. -/
def clearCmd : List Char → Nat → List Char × List Ev
  | a, 0 => (a, [])
  | a, k + 1 =>
    let a2 := a.set k NUL
    let p := clearCmd a2 k
    (p.1, [Ev.out BS, Ev.out SP, Ev.out BS] ++ p.2)

/-- Arrow-up (`SHELL_VT100_ARROWUP`) handling, Shell.c lines 373-397: move to
the next older history entry unless already at the oldest. -/
def arrowUp (cfg : Cfg) (st : St) : St × List Ev :=
  if st.historyBuf ≠ st.oldestBuf then
    let scratch2 :=
      if st.historyBuf = st.currentBuf then
        if 0 < st.count then
          strcpyA st.scratchpad (strVal (st.bufs.getD st.currentBuf []))
        else st.scratchpad.set 0 NUL
      else st.scratchpad
    let cl := clearCmd (st.bufs.getD st.currentBuf []) st.count
    let bufs2 := st.bufs.set st.currentBuf cl.1
    let hist2 := if st.historyBuf = 0 then cfg.N - 1 else st.historyBuf - 1
    let histLine := strVal (bufs2.getD hist2 [])
    let bufs3 := bufs2.set st.currentBuf (strcpyA (bufs2.getD st.currentBuf []) histLine)
    let count2 := (strVal (bufs3.getD st.currentBuf [])).length
    ({ st with
        scratchpad := scratch2
        bufs := bufs3
        historyBuf := hist2
        count := count2 },
      cl.2 ++ printS histLine)
  else
    (st, [Ev.out BEL])

/-- Arrow-down (`SHELL_VT100_ARROWDOWN`) handling, Shell.c lines 398-422: move
to the next newer history entry, restoring the scratchpad text on reaching the
uncommitted slot, unless already there. -/
def arrowDown (cfg : Cfg) (st : St) : St × List Ev :=
  if st.historyBuf ≠ st.currentBuf then
    let cl := clearCmd (st.bufs.getD st.currentBuf []) st.count
    let bufs2 := st.bufs.set st.currentBuf cl.1
    let hist2 := if st.historyBuf = cfg.N - 1 then 0 else st.historyBuf + 1
    if hist2 = st.currentBuf then
      let sp := strVal st.scratchpad
      let bufs3 :=
        if 0 < sp.length then
          bufs2.set st.currentBuf (strcpyA (bufs2.getD st.currentBuf []) sp)
        else bufs2
      let evs2 := if 0 < sp.length then printS sp else []
      let count2 := (strVal (bufs3.getD st.currentBuf [])).length
      ({ st with bufs := bufs3, historyBuf := hist2, count := count2 },
        cl.2 ++ evs2)
    else
      let histLine := strVal (bufs2.getD hist2 [])
      let bufs3 := bufs2.set st.currentBuf (strcpyA (bufs2.getD st.currentBuf []) histLine)
      let count2 := (strVal (bufs3.getD st.currentBuf [])).length
      ({ st with bufs := bufs3, historyBuf := hist2, count := count2 },
        cl.2 ++ printS histLine)
  else
    (st, [Ev.out BEL])

/-- The sequential search over the command table, Shell.c lines 493-507:
entries with a null function pointer are skipped; every entry whose name
compares equal to `argv[0]` has its handler run.  (There is no `break` after
a match: the scan continues to the end of the table.) -/
def dispatchRun (table : List CmdEntry) (argc : Nat) (argv : List (List Char)) :
    List Ev :=
  match table with
  | [] => []
  | e :: rest =>
    match e.program with
    | none => dispatchRun rest argc argv
    | some p =>
      if e.name = some (argv.getD 0 []) then
        Ev.invoke p argc argv :: dispatchRun rest argc argv
      else dispatchRun rest argc argv

/-- The completed-line path of `shell_task` (the `if (cc)` block plus the
`SHELL_ASCII_CR` case), Shell.c lines 454-458 and 482-547: terminate the line,
copy it to the scratchpad, tokenize the copy, resolve escapes, dispatch,
report an unmatched non-empty line, commit to the history ring, reset the
navigation cursor and the character count, and print a fresh prompt.

The in-place writes `shell_parse` and `shell_process_escape` perform inside
the scratchpad are modelled functionally (`shellParse` / `processEscape`);
the scratchpad field keeps the `strcpy`-copied line.  Its residue beyond that
is never observed: every later read of the scratchpad is preceded by a
`strcpy` into it or by the write of a leading NUL (arrow-up), and reads stop
at the first NUL. -/
def onEnter (cfg : Cfg) (st : St) : St × List Ev :=
  let cur1 := (st.bufs.getD st.currentBuf []).set st.count NUL
  let bufs1 := st.bufs.set st.currentBuf cur1
  let line := strVal cur1
  let scratch2 := strcpyA st.scratchpad line
  let p := shellParse line cfg.maxargs
  let args := processEscape
    ((List.range p.argc).map (fun k => strVal (p.buf.drop (argvAt p.writes k))))
  let inv := dispatchRun cfg.table p.argc args
  let evs1 :=
    if inv.isEmpty ∧ st.count ≠ 0 then printS (("Command NOT found.".data) ++ crlf)
    else []
  let prev := prevSlot cfg.N st.currentBuf
  let docommit : Bool :=
    st.count ≠ 0 ∧
      (st.currentBuf = st.oldestBuf ∨ strVal (bufs1.getD prev []) ≠ line)
  let cur2 :=
    if docommit then (if st.currentBuf = cfg.N - 1 then 0 else st.currentBuf + 1)
    else st.currentBuf
  let wrapped2 :=
    if docommit then (if st.currentBuf = cfg.N - 1 then true else st.wrapped)
    else st.wrapped
  let old2 :=
    if docommit ∧ wrapped2 then
      (if st.oldestBuf = cfg.N - 1 then 0 else st.oldestBuf + 1)
    else st.oldestBuf
  ({ st with
      bufs := bufs1
      scratchpad := scratch2
      currentBuf := cur2
      oldestBuf := old2
      wrapped := wrapped2
      historyBuf := cur2
      count := 0 },
    printS crlf ++ inv ++ evs1 ++ printS crlf ++ printS promptStr)

/-- One `shell_task` call that received the character `c` from the reader
(Shell.c lines 364-548; the buffered-output wrapper is out of scope). -/
def shellStep (cfg : Cfg) (st : St) (c : Char) : St × List Ev :=
  if st.escapeMode then
    if st.csiMode then
      if 0x30 ≤ c.toNat ∧ c.toNat ≤ 0x3f then (st, [])
      else if 0x20 ≤ c.toNat ∧ c.toNat ≤ 0x2f then (st, [])
      else if 0x40 ≤ c.toNat ∧ c.toNat ≤ 0x7e then
        let r :=
          if c = 'A' then arrowUp cfg st
          else if c = 'B' then arrowDown cfg st
          else (st, [])
        ({ r.1 with escapeMode := false, csiMode := false }, r.2)
      else (st, [])
    else
      if c = '[' then ({ st with csiMode := true }, [])
      else ({ st with escapeMode := false }, [])
  else
    if c = ESC then ({ st with escapeMode := true }, [])
    else if c = DEL then (st, [Ev.out BEL])
    else if c = HT then (st, [Ev.out BEL])
    else if c = CR then onEnter cfg st
    else if c = BS then
      if 0 < st.count then
        let cur2 := (st.bufs.getD st.currentBuf []).set st.count NUL
        ({ st with bufs := st.bufs.set st.currentBuf cur2, count := st.count - 1 },
          [Ev.out BS, Ev.out SP, Ev.out BS])
      else (st, [Ev.out BEL])
    else
      if st.count < cfg.M - 1 ∧ 0x20 ≤ c.toNat ∧ c.toNat < 0x7f then
        let cur1 := (st.bufs.getD st.currentBuf []).set st.count c
        let cur2 := if st.count < cfg.M - 2 then cur1.set (st.count + 1) NUL else cur1
        ({ st with bufs := st.bufs.set st.currentBuf cur2, count := st.count + 1 },
          [Ev.out c])
      else (st, [])

/-- Feed a sequence of received characters through `shell_task`, concatenating
the observable events. -/
def shellRun (cfg : Cfg) (st : St) : List Char → St × List Ev
  | [] => (st, [])
  | c :: rest =>
    let r := shellStep cfg st c
    let r2 := shellRun cfg r.1 rest
    (r2.1, r.2 ++ r2.2)

/-- The session state after `shell_init`: flags clear, indices zero, all
buffers zero (C globals are zero-initialised and `shell_init` NUL-terminates
every slot). -/
def initSt (cfg : Cfg) : St :=
  { escapeMode := false
    csiMode := false
    currentBuf := 0
    historyBuf := 0
    oldestBuf := 0
    wrapped := false
    count := 0
    scratchpad := List.replicate cfg.M NUL
    bufs := List.replicate cfg.N (List.replicate cfg.M NUL) }

/-!  ## `shell_init` (Shell.c lines 136-171) -/

/-- The global state `shell_init` touches: the command table, the session
state, the stored reader/writer callbacks (a `Nat` identifies a host callback,
`none` models a null pointer) and the `initialized` flag. -/
structure Global where
  table : List CmdEntry
  sess : St
  reader : Option Nat
  writer : Option Nat
  initialized : Bool
deriving DecidableEq

/-- `shell_unregister_all`: every table entry gets null program and name. -/
def shellUnregisterAll (table : List CmdEntry) : List CmdEntry :=
  List.replicate table.length ⟨none, none⟩

/-- `shell_init`: rejects a null reader or writer before touching anything;
otherwise clears the table, empties every history slot (first character NUL),
zeroes the indices and count, stores the callbacks, sets `initialized`, prints
the greeting (`msg` if non-null, else the library banner, whose version text
lives in the missing `Shell.h`) followed by the prompt.  Returns the success
flag, the new global state and the printed characters. -/
def shellInit (reader writer : Option Nat) (msg : Option (List Char))
    (banner : List Char) (g : Global) : Bool × Global × List Char :=
  if reader = none ∨ writer = none then (false, g, [])
  else
    let sess2 :=
      { g.sess with
          bufs := g.sess.bufs.map (fun b => b.set 0 NUL)
          currentBuf := 0
          historyBuf := 0
          oldestBuf := 0
          wrapped := false
          count := 0 }
    let greet := match msg with
      | some m => m ++ crlf
      | none => banner ++ crlf
    (true,
      { table := shellUnregisterAll g.table
        sess := sess2
        reader := reader
        writer := writer
        initialized := true },
      greet ++ promptStr)

/-!  ## Reference functions and concrete configurations used by the claims -/

/-- The table entries whose (non-null) handler the dispatch scan runs for the
command name `a`: program pointer set and name equal to `a`. -/
def matchingEntries (table : List CmdEntry) (a : List Char) : List CmdEntry :=
  table.filter (fun e => e.program.isSome && e.name == some a)

/-- Is an event a handler invocation? -/
def isInvokeEv : Ev → Bool
  | .invoke _ _ _ => true
  | .out _ => false

/-- The space splitter described by the spec (section 4.3) restricted to lines
without quotes or backslashes: every space ends the current token and starts
the next one.  Used as the refinement target for `shell_parse` on plain
lines. -/
def spaceSplit : List Char → List (List Char)
  | [] => [[]]
  | c :: rest =>
    if c = ' ' then [] :: spaceSplit rest
    else
      match spaceSplit rest with
      | [] => [[c]]
      | t :: ts => (c :: t) :: ts

/-- The buffer contents `shell_parse` leaves behind on a plain (quote- and
backslash-free) line: every space replaced by a NUL terminator. -/
def mutS (l : List Char) : List Char := l.map (fun c => if c = ' ' then NUL else c)

/-- The `argv` stores the `shell_parse` loop performs on a plain line starting
at position `i` with argument counter `argc`: one store after each space. -/
def spaceWrites : List Char → Nat → Nat → List (Nat × Nat)
  | [], _, _ => []
  | c :: rest, i, argc =>
    if c = ' ' then (argc + 1, i + 1) :: spaceWrites rest (i + 1) (argc + 1)
    else spaceWrites rest (i + 1) argc

/-- A configuration with an empty command table (`M = 16`, `N = 4`,
10 arguments). -/
def cfgPlain : Cfg := ⟨16, 4, 10, []⟩

/-- A configuration with the single registered command `echo`, bound to
handler 7. -/
def cfgEcho : Cfg := ⟨16, 4, 10, [⟨some 7, some ("echo".data)⟩]⟩

/-- A command table with two entries both named `echo`, bound to the two
distinguishable handlers 0 and 1. -/
def dupTable : List CmdEntry := [⟨some 0, some ("echo".data)⟩, ⟨some 1, some ("echo".data)⟩]

/-!  # Theorems -/

/-!  ## Formatter lemmas -/

theorem a2i_rest_length_le (src : List Char) : ∀ (ch : Char) (b n : Nat),
    (a2i ch src b n).2.1.length ≤ src.length := by
  induction src with
  | nil =>
    intro ch b n
    unfold a2i
    cases a2d ch with
    | none => simp
    | some d => by_cases hd : b < d <;> simp [hd]
  | cons c cs ih =>
    intro ch b n
    unfold a2i
    cases a2d ch with
    | none => simp
    | some d =>
      by_cases hd : b < d
      · simp [hd]
      · simpa [hd] using Nat.le_succ_of_le (ih c b (n * b + d))

theorem flagRead_length_le (c1 : Char) (rest1 : List Char) :
    (flagRead c1 rest1).2.length ≤ rest1.length := by
  unfold flagRead
  by_cases h : c1 = '0'
  · cases rest1 <;> simp [h]
  · simp [h]

theorem widthRead_rest_length_le (c2 : Char) (rest2 : List Char) :
    (widthRead c2 rest2).2.1.length ≤ rest2.length := by
  unfold widthRead
  by_cases h : '0' ≤ c2 ∧ c2 ≤ '9'
  · simpa [h] using a2i_rest_length_le rest2 c2 10 0
  · simp [h]

theorem verbSwitch_rest (c3 : Char) (w : Nat) (lz : Bool) (rest3 : List Char)
    (args : List FmtArg) : (verbSwitch c3 w lz rest3 args).2.1 = rest3 := by
  unfold verbSwitch
  split_ifs <;> rfl

theorem fmtVerb_rest_length_le (rest : List Char) (args : List FmtArg) :
    (fmtVerb rest args).2.1.length ≤ rest.length := by
  cases rest with
  | nil => simp [fmtVerb]
  | cons c1 rest1 =>
    show (fmtAfterFlag (c1 = '0') (flagRead c1 rest1) args).2.1.length ≤ _
    unfold fmtAfterFlag
    rw [verbSwitch_rest]
    calc (widthRead (flagRead c1 rest1).1 (flagRead c1 rest1).2).2.1.length
        ≤ (flagRead c1 rest1).2.length := widthRead_rest_length_le _ _
      _ ≤ rest1.length := flagRead_length_le _ _
      _ ≤ (c1 :: rest1).length := by simp

theorem shellFormatGo_nil (fuel : Nat) (args : List FmtArg) :
    shellFormatGo fuel [] args = [] := by
  cases fuel <;> rfl

theorem shellFormatGo_marker (fuel : Nat) (rest : List Char) (args : List FmtArg) :
    shellFormatGo (fuel + 1) ('%' :: rest) args =
      match fmtVerb rest args with
      | (out, _, none) => out
      | (out, rest3, some args2) => out ++ shellFormatGo fuel rest3 args2 := by
  rfl

theorem shellFormatGo_cons (fuel : Nat) (ch : Char) (rest : List Char)
    (args : List FmtArg) (h : ch ≠ '%') :
    shellFormatGo (fuel + 1) (ch :: rest) args = ch :: shellFormatGo fuel rest args := by
  simp [shellFormatGo, h]

/-- The fuel is irrelevant as long as it dominates the template length. -/
theorem shellFormatGo_fuel (f1 : Nat) : ∀ (f2 : Nat) (fmt : List Char)
    (args : List FmtArg), fmt.length ≤ f1 → fmt.length ≤ f2 →
    shellFormatGo f1 fmt args = shellFormatGo f2 fmt args := by
  induction f1 with
  | zero =>
    intro f2 fmt args h1 _
    rw [List.length_eq_zero.mp (Nat.le_zero.mp h1)]
    rw [shellFormatGo_nil, shellFormatGo_nil]
  | succ f1 ih =>
    intro f2 fmt args h1 h2
    cases fmt with
    | nil => rw [shellFormatGo_nil, shellFormatGo_nil]
    | cons ch rest =>
      cases f2 with
      | zero => simp at h2
      | succ f2 =>
        simp only [List.length_cons, Nat.succ_le_succ_iff] at h1 h2
        by_cases hch : ch = '%'
        · subst hch
          rw [shellFormatGo_marker, shellFormatGo_marker]
          have hr := fmtVerb_rest_length_le rest args
          rcases hv : fmtVerb rest args with ⟨out, rest3, a2⟩
          rw [hv] at hr
          simp only at hr
          cases a2 with
          | none => rfl
          | some args2 =>
            simp only
            rw [ih f2 rest3 args2 (le_trans hr h1) (le_trans hr h2)]
        · rw [shellFormatGo_cons _ _ _ _ hch, shellFormatGo_cons _ _ _ _ hch,
            ih f2 rest args h1 h2]

/-- A template without the marker is copied verbatim. -/
theorem shellFormatGo_no_marker (fuel : Nat) : ∀ (fmt : List Char)
    (args : List FmtArg), fmt.length ≤ fuel → '%' ∉ fmt →
    shellFormatGo fuel fmt args = fmt := by
  induction fuel with
  | zero =>
    intro fmt args h1 _
    rw [List.length_eq_zero.mp (Nat.le_zero.mp h1)]
    exact shellFormatGo_nil _ _
  | succ fuel ih =>
    intro fmt args h1 hm
    cases fmt with
    | nil => exact shellFormatGo_nil _ _
    | cons ch rest =>
      have hch : ch ≠ '%' := fun h => hm (h ▸ List.mem_cons_self _ _)
      simp only [List.length_cons, Nat.succ_le_succ_iff] at h1
      rw [shellFormatGo_cons _ _ _ _ hch,
        ih rest args h1 (fun h => hm (List.mem_cons_of_mem _ h))]

/-- A marker-free prefix is copied verbatim and processing continues on the
remainder of the template. -/
theorem shellFormatGo_append (pre : List Char) : ∀ (fuel : Nat) (fmt2 : List Char)
    (args : List FmtArg), pre.length + fmt2.length ≤ fuel → '%' ∉ pre →
    shellFormatGo fuel (pre ++ fmt2) args
      = pre ++ shellFormatGo (fuel - pre.length) fmt2 args := by
  induction pre with
  | nil => simp
  | cons p ps ih =>
    intro fuel fmt2 args h1 hm
    cases fuel with
    | zero => simp at h1
    | succ fuel =>
      have hp : p ≠ '%' := fun h => hm (h ▸ List.mem_cons_self _ _)
      have hm2 : '%' ∉ ps := fun h => hm (List.mem_cons_of_mem _ h)
      have h2 : ps.length + fmt2.length ≤ fuel := by
        simp only [List.length_cons] at h1; omega
      rw [List.cons_append, shellFormatGo_cons _ _ _ _ hp, ih fuel fmt2 args h2 hm2]
      simp [Nat.succ_sub_succ]

/-- An unrecognized verb character (no flag, no digit, not one of the verb
letters, not the terminator) is consumed with no output and processing
continues. -/
theorem fmtVerb_unrecognized (c : Char) (rest : List Char) (args : List FmtArg)
    (hdig : ¬('0' ≤ c ∧ c ≤ '9'))
    (hv : c ∉ ([NUL, 'u', 'd', 'x', 'X', 'c', 's', '%'] : List Char)) :
    fmtVerb (c :: rest) args = ([], rest, some args) := by
  simp only [List.mem_cons, List.mem_singleton, not_or] at hv
  obtain ⟨h0, hu, hd, hx, hX, hc, hs, hp, -⟩ := hv
  have hz : c ≠ '0' := by
    intro h
    exact hdig (by rw [h]; exact ⟨le_refl _, by decide⟩)
  show fmtAfterFlag (c = '0') (flagRead c rest) args = _
  rw [flagRead.eq_def, if_neg hz]
  unfold fmtAfterFlag
  rw [widthRead.eq_def, if_neg hdig]
  simp only
  rw [verbSwitch.eq_def, if_neg h0, if_neg hu, if_neg hd, if_neg (by simp [hx, hX]),
    if_neg hc, if_neg hs, if_neg hp]

/-!  ## Claim C9 — formatter width, zero-pad, hex and string examples
(confirmed) -/

/-- Claim C9: the Formatter honors minimum field width and the zero-pad flag
for numeric verbs and width for strings: `"%3d"` with 5 renders `"  5"`,
`"%03d"` with 5 renders `"005"`, `"%x"` with 255 renders `"ff"`, and `"%s"`
with `"hi"` renders `"hi"`. -/
theorem claim_C9_formatter_examples :
    shellFormat (("%3d").data) [FmtArg.int 5] = (("  5").data) ∧
    shellFormat (("%03d").data) [FmtArg.int 5] = (("005").data) ∧
    shellFormat (("%x").data) [FmtArg.int 255] = (("ff").data) ∧
    shellFormat (("%s").data) [FmtArg.str (("hi").data)] = (("hi").data) := by
  refine ⟨by decide, by decide, by decide, by decide⟩

/-!  ## Claim C3 — formatter abort behaviour (corrected)

The claim states that an unterminated *or unrecognized* verb aborts formatting
with none of the remaining template characters processed.  The code only
aborts on an unterminated verb (`case 0: goto abort;`); an unrecognized verb
falls into the switch's `default:` branch, which merely breaks, so the verb
character is skipped and the rest of the template is still processed. -/

/-- Counterexample to claim C3: rendering `"%qXY"` emits `"XY"` — the
characters after the unrecognized verb `q` are processed, not discarded. -/
theorem claim_C3_counterexample :
    shellFormat (("%qXY").data) [] = (("XY").data) ∧
    (("XY").data) ≠ ([] : List Char) := by
  refine ⟨by decide, by decide⟩

/-- Claim C3 as amended: literal characters are copied verbatim; an
*unterminated* verb (the template ends at the marker) aborts formatting at
that point; an *unrecognized* verb character is consumed without output and
the remaining template characters are still processed. -/
theorem claim_C3_amended :
    (∀ (fmt : List Char) (args : List FmtArg), '%' ∉ fmt →
      shellFormat fmt args = fmt) ∧
    (∀ (pre : List Char) (args : List FmtArg), '%' ∉ pre →
      shellFormat (pre ++ ['%']) args = pre) ∧
    (∀ (pre : List Char) (c : Char) (rest : List Char) (args : List FmtArg),
      '%' ∉ pre → ¬('0' ≤ c ∧ c ≤ '9') →
      c ∉ ([NUL, 'u', 'd', 'x', 'X', 'c', 's', '%'] : List Char) →
      shellFormat (pre ++ '%' :: c :: rest) args = pre ++ shellFormat rest args) := by
  refine ⟨?_, ?_, ?_⟩
  · intro fmt args hm
    exact shellFormatGo_no_marker _ fmt args (le_refl _) hm
  · intro pre args hm
    unfold shellFormat
    rw [shellFormatGo_append pre _ ['%'] args (by simp) hm]
    have : (pre ++ ['%']).length - pre.length = 1 := by simp
    rw [this]
    rw [shellFormatGo_marker 0 [] args]
    simp [fmtVerb]
  · intro pre c rest args hm hdig hv
    unfold shellFormat
    rw [shellFormatGo_append pre _ ('%' :: c :: rest) args (by simp) hm]
    have h1 : (pre ++ '%' :: c :: rest).length - pre.length = rest.length + 2 := by
      simp
    rw [h1, shellFormatGo_marker (rest.length + 1) (c :: rest) args,
      fmtVerb_unrecognized c rest args hdig hv]
    simp only [List.nil_append]
    rw [shellFormatGo_fuel (rest.length + 1) rest.length rest args
      (Nat.le_succ _) (le_refl _)]

/-- Witness for the amended claim C3, instantiating all three parts at
concrete inputs. -/
theorem claim_C3_amended_witness :
    shellFormat (("abc").data) [] = (("abc").data) ∧
    shellFormat ((("ab").data) ++ ['%']) [] = (("ab").data) ∧
    shellFormat ((("ab").data) ++ '%' :: 'q' :: (("cd").data)) []
      = (("ab").data) ++ shellFormat (("cd").data) [] := by
  refine ⟨claim_C3_amended.1 _ [] (by decide),
    claim_C3_amended.2.1 _ [] (by decide),
    claim_C3_amended.2.2 _ 'q' _ [] (by decide) (by decide) (by decide)⟩

/-!  ## Claim C4 — tokenizer truncation and bounds (corrected)

Truncation is as claimed: the loop guard `argc < maxargs` stops parsing early
and the returned count never exceeds `maxargs`.  But the claimed bound on the
`argv` stores is wrong: in the space case the code increments `argc` *first*
and then stores `argv[argc] = &buf[i + 1]`, so the store index can equal
`maxargs` — one past the end of a `maxargs`-element array. -/

/-- Every `parseLoop` iteration keeps `argc ≤ maxargs` and store indices
`≤ maxargs`. -/
theorem parseLoop_bounds (maxargs length : Nat) (fuel : Nat) : ∀ (s : PSt),
    s.argc ≤ maxargs → (∀ w ∈ s.writes, w.1 ≤ maxargs) →
    (parseLoop maxargs length fuel s).argc ≤ maxargs ∧
      ∀ w ∈ (parseLoop maxargs length fuel s).writes, w.1 ≤ maxargs := by
  induction fuel with
  | zero => exact fun s h1 h2 => ⟨h1, h2⟩
  | succ fuel ih =>
    intro s h1 h2
    rw [parseLoop]
    by_cases hg : s.i < length ∧ s.argc < maxargs
    · rw [if_pos hg]
      by_cases h0 : s.buf.getD s.i NUL = NUL
      · rw [if_pos h0]
        exact ⟨Nat.succ_le_of_lt hg.2, h2⟩
      · rw [if_neg h0]
        by_cases hb : s.buf.getD s.i NUL = '\\'
        · rw [if_pos hb]
          exact ih _ h1 h2
        · rw [if_neg hb]
          by_cases hq : s.buf.getD s.i NUL = '"'
          · rw [if_pos hq]
            apply ih
            · by_cases he : s.escape = false <;> by_cases ht : s.toggle = false <;>
                simp [he, ht, h1]
            · by_cases he : s.escape = false <;> by_cases ht : s.toggle = false <;>
                simp only [he, ht, if_pos, if_neg, if_true, if_false,
                  Bool.false_eq_true] <;>
              · intro w hw
                first
                | exact h2 w hw
                | · rcases List.mem_append.mp hw with h | h
                    · exact h2 w h
                    · rcases List.mem_singleton.mp h with rfl
                      exact Nat.le_of_lt hg.2
          · rw [if_neg hq]
            by_cases hs : s.buf.getD s.i NUL = ' '
            · rw [if_pos hs]
              apply ih
              · by_cases ht : s.toggle = false <;> simp [ht, h1, Nat.succ_le_of_lt hg.2]
              · by_cases ht : s.toggle = false <;>
                  simp only [ht, if_pos, if_neg, if_true, if_false,
                    Bool.false_eq_true] <;>
                · intro w hw
                  first
                  | exact h2 w hw
                  | · rcases List.mem_append.mp hw with h | h
                      · exact h2 w h
                      · rcases List.mem_singleton.mp h with rfl
                        exact Nat.succ_le_of_lt hg.2
            · rw [if_neg hs]
              exact ih _ h1 h2
    · rw [if_neg hg]
      exact ⟨h1, h2⟩

/-- Counterexample to claim C4: parsing `"a b c"` with `maxargs = 2` stores
`argv[2] = &buf[4]` — the store index 2 is not within the bounds of a
2-element array. -/
theorem claim_C4_counterexample :
    (2, 4) ∈ (shellParse (("a b c").data) 2).writes ∧ ¬(2 < 2) := by
  refine ⟨by decide, by decide⟩

/-- Claim C4 as amended: tokenization is total; parsing stops once `argc`
reaches `maxargs` and the returned count never exceeds it; every store into
the argument-pointer array has index at most `maxargs` — i.e. within a
`maxargs + 1`-element bound, one more slot than the claim allows. -/
theorem claim_C4_amended (line : List Char) (maxargs : Nat) :
    (shellParse line maxargs).argc ≤ maxargs ∧
      ∀ w ∈ (shellParse line maxargs).writes, w.1 ≤ maxargs := by
  unfold shellParse
  exact parseLoop_bounds maxargs (line.length + 1) (line.length + 2) _
    (Nat.zero_le _)
    (fun w hw => by rcases List.mem_singleton.mp hw with rfl; exact Nat.zero_le _)

/-- Witness for the amended claim C4 at a concrete line, store and bound. -/
theorem claim_C4_amended_witness :
    (shellParse (("a b c").data) 2).argc ≤ 2 ∧ (2, 4).1 ≤ 2 :=
  ⟨(claim_C4_amended (("a b c").data) 2).1,
    (claim_C4_amended (("a b c").data) 2).2 (2, 4) (by decide)⟩

/-!  ## Claim C10 — `shell_init` null-callback rejection (confirmed) -/

/-- Claim C10: `shell_init` with a null reader or writer returns failure,
changes no state (table, ring slots, indices, count, callbacks, `initialized`)
and prints nothing. -/
theorem claim_C10_init_null (reader writer : Option Nat)
    (msg : Option (List Char)) (banner : List Char) (g : Global)
    (h : reader = none ∨ writer = none) :
    shellInit reader writer msg banner g = (false, g, []) := by
  unfold shellInit
  rw [if_pos h]

/-- Witness for claim C10 at a concrete null reader. -/
theorem claim_C10_init_null_witness :
    shellInit none (some 3) (some (("hello").data)) (("v1").data)
        ⟨dupTable, initSt cfgEcho, none, none, false⟩
      = (false, ⟨dupTable, initSt cfgEcho, none, none, false⟩, []) :=
  claim_C10_init_null none (some 3) _ _ _ (Or.inl rfl)

/-!  ## Claim C5 — history navigation round trip (code bug)

The claim (and spec section 8) promise that arrow-up followed by arrow-down
restores the exact pre-navigation line state.  The backspace handler, however,
NUL-terminates at `shellbuf[currentBuf][count]` *before* decrementing `count`
(Shell.c lines 462-463) — one position past the last character — so the erased
character stays in the buffer.  Its own comment says the NUL is written "so we
don't have to worry about this text next time through the ring buffer", yet
arrow-up saves the stale text (`strcpy` stops at the first NUL, which is after
the erased character) and arrow-down restores it: after typing `x`⏎`ab`⌫ the
cursor count is 1, but after arrow-up then arrow-down it is 2 and the line
reads `ab` again. -/

/-- Claim C5 failing input, evaluated on the model: after `x`⏎`ab`⌫ the count
is 1; after the subsequent arrow-up, arrow-down pair the count is 2 and the
line buffer holds `ab` — the pre-navigation line state is not restored. -/
theorem claim_C5_navigation_not_restoring :
    (shellRun cfgPlain (initSt cfgPlain) (("x\x0Dab\x08").data)).1.count = 1 ∧
    (shellRun cfgPlain (initSt cfgPlain)
        (("x\x0Dab\x08\x1b[A\x1b[B").data)).1.count = 2 ∧
    strVal (((shellRun cfgPlain (initSt cfgPlain)
        (("x\x0Dab\x08\x1b[A\x1b[B").data)).1.bufs).getD 1 []) = (("ab").data) := by
  refine ⟨by decide, by decide, by decide⟩

/-!  ## Claim C6 — alerts never mutate buffer state (confirmed) -/

/-- Claim C6: backspace on an empty line, arrow-up at the oldest entry and
arrow-down at the newest position leave the line buffers, the cursor count,
the scratchpad and all ring indices unchanged and emit exactly one audible
alert (the final-byte handling clears the escape-decoding flags, which are not
buffer state). -/
theorem claim_C6_alerts_frame :
    (∀ (cfg : Cfg) (st : St), st.escapeMode = false → st.count = 0 →
      shellStep cfg st BS = (st, [Ev.out BEL])) ∧
    (∀ (cfg : Cfg) (st : St), st.escapeMode = true → st.csiMode = true →
      st.historyBuf = st.oldestBuf →
      shellStep cfg st 'A'
        = ({ st with escapeMode := false, csiMode := false }, [Ev.out BEL])) ∧
    (∀ (cfg : Cfg) (st : St), st.escapeMode = true → st.csiMode = true →
      st.historyBuf = st.currentBuf →
      shellStep cfg st 'B'
        = ({ st with escapeMode := false, csiMode := false }, [Ev.out BEL])) := by
  refine ⟨?_, ?_, ?_⟩
  · intro cfg st he hc
    simp [shellStep, he, hc, BS, ESC, DEL, HT, CR, BEL]
  · intro cfg st he hc hh
    simp [shellStep, he, hc, arrowUp, hh, BEL]
  · intro cfg st he hc hh
    simp [shellStep, he, hc, arrowDown, hh, BEL]

/-- Witness for claim C6 at concrete states. -/
theorem claim_C6_alerts_frame_witness :
    shellStep cfgPlain (initSt cfgPlain) BS = (initSt cfgPlain, [Ev.out BEL]) ∧
    shellStep cfgPlain
        { initSt cfgPlain with escapeMode := true, csiMode := true } 'A'
      = ({ initSt cfgPlain with escapeMode := false, csiMode := false },
        [Ev.out BEL]) ∧
    shellStep cfgPlain
        { initSt cfgPlain with escapeMode := true, csiMode := true } 'B'
      = ({ initSt cfgPlain with escapeMode := false, csiMode := false },
        [Ev.out BEL]) :=
  ⟨claim_C6_alerts_frame.1 cfgPlain _ rfl rfl,
    claim_C6_alerts_frame.2.1 cfgPlain _ rfl rfl rfl,
    claim_C6_alerts_frame.2.2 cfgPlain _ rfl rfl rfl⟩

/-!  ## Claim C1 — dispatch match behaviour (corrected)

The linear scan, exact case-sensitive comparison, the "command not found"
report and the handler receiving the full argument list are all as claimed.
But the scan has no `break` after a match: it runs the handler of *every*
matching entry, so with duplicate names the handler bound to the second
colliding registration is also invoked and the dispatch is not
"exactly once". -/

/-- Counterexample to claim C1: with two registered entries both named `echo`,
dispatching `echo` invokes both bound handlers (0 then 1), not only the first
match. -/
theorem claim_C1_counterexample :
    dispatchRun dupTable 1 [("echo").data]
      = [Ev.invoke 0 1 [("echo").data], Ev.invoke 1 1 [("echo").data]] ∧
    (dispatchRun dupTable 1 [("echo").data]).length ≠ 1 := by
  refine ⟨by decide, by decide⟩

/-- Claim C1 as amended: the dispatch scan invokes, once each and in table
order, the handler of *every* entry whose program pointer is set and whose
name is exactly equal (case-sensitively) to the first argument; hence with no
duplicate matching names the matched handler runs exactly once.  Concretely,
dispatching `echo 1 2` against a table registering `echo` invokes its handler
exactly once with argument count 3, and a non-empty unregistered line `nope`
invokes no handler and reports `Command NOT found.`. -/
theorem claim_C1_amended :
    (∀ (table : List CmdEntry) (argc : Nat) (argv : List (List Char)),
      dispatchRun table argc argv
        = (matchingEntries table (argv.getD 0 [])).filterMap
            (fun e => e.program.map (fun p => Ev.invoke p argc argv))) ∧
    (shellRun cfgEcho (initSt cfgEcho) (("echo 1 2\x0D").data)).2.filter isInvokeEv
      = [Ev.invoke 7 3 [("echo").data, ("1").data, ("2").data]] ∧
    (shellRun cfgEcho (initSt cfgEcho) (("nope\x0D").data)).2
      = printS (("nope\x0D\x0ACommand NOT found.\x0D\x0A\x0D\x0Adevice>").data) := by
  refine ⟨?_, by decide, by decide⟩
  intro table argc argv
  induction table with
  | nil => rfl
  | cons e rest ih =>
    cases hp : e.program with
    | none => simp [dispatchRun, matchingEntries, List.filter, hp, ih]
    | some p =>
      rw [List.getD_eq_getElem?_getD] at ih ⊢
      by_cases hn : e.name = some (argv[0]?.getD [])
      · simp [dispatchRun, matchingEntries, List.filter, hp, hn, ih,
          List.filterMap]
      · have hb : (e.name == some (argv[0]?.getD [])) = false := by
          simp [hn]
        simp [dispatchRun, matchingEntries, List.filter, hp, hn, hb, ih]

/-!  ## Claim C7 — escape resolution (confirmed) -/

theorem listSet_take (l : List Char) (j : Nat) (a : Char) :
    (l.set j a).take j = l.take j := by
  apply List.ext_getElem?
  intro i
  rw [List.getElem?_take, List.getElem?_take]
  by_cases hij : i < j
  · rw [if_pos hij, if_pos hij, List.getElem?_set, if_neg (Nat.ne_of_gt hij)]
  · rw [if_neg hij, if_neg hij]

theorem listSet_take_succ (l : List Char) (j : Nat) (a : Char) (h : j < l.length) :
    (l.set j a).take (j + 1) = l.take j ++ [a] := by
  rw [List.take_succ, listSet_take, List.getElem?_set, if_pos rfl, if_pos h]
  rfl

/-- A getD value different from the default means the index is in range. -/
theorem getD_ne_lt {l : List Char} {n : Nat} {d : Char} (h : l.getD n d ≠ d) :
    n < l.length := by
  by_contra hn
  exact h (List.getD_eq_default l d (Nat.le_of_not_lt hn))

theorem escLoop_eq (sl : Nat) : ∀ (fuel : Nat) (buf : List Char) (j r : Nat),
    j ≤ sl → sl ≤ j + fuel → sl ≤ buf.length →
    escLoop sl fuel buf j r
      = buf.take j ++ escRunPad (buf.drop (j + r)) (sl - j) ++ buf.drop sl := by
  intro fuel
  induction fuel with
  | zero =>
    intro buf j r h1 h2 h3
    have hj : j = sl := Nat.le_antisymm h1 (by omega)
    subst hj
    rw [escLoop, Nat.sub_self, escRunPad]
    simp
  | succ fuel ih =>
    intro buf j r h1 h2 h3
    by_cases hj : j < sl
    · have hjlen : j < buf.length := Nat.lt_of_lt_of_le hj h3
      have hsl : sl - j = (sl - (j + 1)) + 1 := by omega
      rw [escLoop, if_pos hj]
      simp only
      by_cases hhit : buf.getD (j + r) NUL = '\\' ∧ buf.getD (j + r + 1) NUL = '"'
      · -- collapse case
        have hr0 : j + r < buf.length := getD_ne_lt (by rw [hhit.1]; decide)
        have hr1 : j + r + 1 < buf.length := getD_ne_lt (by rw [hhit.2]; decide)
        rw [if_pos hhit, if_pos hhit]
        have hne : j ≠ j + r + 1 := by omega
        have hgd : (buf.set j '"').getD (j + (r + 1)) NUL = '"' := by
          rw [List.getD_eq_getElem?_getD, List.getElem?_set, if_neg (by omega : ¬(j = j + (r+1)))]
          rw [show j + (r+1) = j + r + 1 by omega, ← List.getD_eq_getElem?_getD, hhit.2]
        rw [if_pos (by omega : 0 < r + 1), hgd, List.set_set]
        rw [ih (buf.set j '"') (j + 1) (r + 1) hj (by omega)
          (by rw [List.length_set]; exact h3)]
        -- rewrite the pieces
        rw [listSet_take_succ _ _ _ hjlen]
        rw [List.drop_set, if_pos (by omega : j < j + 1 + (r + 1))]
        rw [List.drop_set, if_pos (by omega : j < sl)]
        -- window on the right
        have hw : buf.drop (j + r) = '\\' :: '"' :: buf.drop (j + r + 2) := by
          rw [List.drop_eq_getElem_cons hr0]
          rw [List.drop_eq_getElem_cons (by omega : j + r + 1 < buf.length)]
          have e0 : buf[j + r] = '\\' := by
            have := hhit.1
            rw [List.getD_eq_getElem?_getD, List.getElem?_eq_getElem hr0] at this
            simpa using this
          have e1 : buf[j + r + 1] = '"' := by
            have := hhit.2
            rw [List.getD_eq_getElem?_getD, List.getElem?_eq_getElem hr1] at this
            simpa using this
          rw [e0, e1]
        rw [hw, hsl, escRunPad]
        rw [if_pos (by exact ⟨rfl, rfl⟩)]
        simp only [List.tail_cons]
        have : j + 1 + (r + 1) = j + r + 2 := by omega
        rw [this]
        simp
      · -- no-collapse case
        rw [if_neg hhit, if_neg hhit]
        -- the written value: c0 when r2 > 0, nothing when r = 0
        by_cases hr : 0 < r
        · rw [if_pos hr]
          rw [ih _ (j + 1) r hj (by omega) (by rw [List.length_set]; exact h3)]
          rw [listSet_take_succ _ _ _ hjlen]
          rw [List.drop_set, if_pos (by omega : j < j + 1 + r)]
          rw [List.drop_set, if_pos (by omega : j < sl)]
          by_cases hw : j + r < buf.length
          · have hwin : buf.drop (j + r) = buf.getD (j + r) NUL :: buf.drop (j + r + 1) := by
              rw [List.drop_eq_getElem_cons hw]
              rw [List.getD_eq_getElem?_getD, List.getElem?_eq_getElem hw]
              rfl
            rw [hwin, hsl, escRunPad]
            rw [if_neg (by
              intro hc
              apply hhit
              refine ⟨hc.1, ?_⟩
              have := hc.2
              rw [List.head?_drop] at this
              rw [List.getD_eq_getElem?_getD, this]
              rfl)]
            have : j + 1 + r = j + r + 1 := by omega
            rw [this]
            simp
          · have hc0 : buf.getD (j + r) NUL = NUL :=
              List.getD_eq_default _ _ (Nat.le_of_not_lt hw)
            have hwin : buf.drop (j + r) = [] :=
              List.drop_eq_nil_of_le (Nat.le_of_not_lt hw)
            have hwin2 : buf.drop (j + 1 + r) = [] :=
              List.drop_eq_nil_of_le (by omega)
            rw [hwin, hwin2, hc0, hsl, escRunPad]
            simp
        · have hr0 : r = 0 := by omega
          subst hr0
          rw [if_neg (by omega : ¬(0:Nat) < 0)]
          rw [ih _ (j + 1) 0 hj (by omega) h3]
          have hwin : buf.drop (j + 0) = buf.getD (j + 0) NUL :: buf.drop (j + 1) := by
            rw [List.drop_eq_getElem_cons (by omega : j + 0 < buf.length)]
            rw [List.getD_eq_getElem?_getD, List.getElem?_eq_getElem (by omega : j + 0 < buf.length)]
            rfl
          rw [hwin, hsl, escRunPad]
          rw [if_neg (by
            intro hc
            apply hhit
            refine ⟨hc.1, ?_⟩
            have := hc.2
            rw [List.head?_drop] at this
            rw [List.getD_eq_getElem?_getD, this]
            rfl)]
          rw [List.take_succ]
          have : buf[j]?.toList = [buf.getD (j + 0) NUL] := by
        
            rw [List.getElem?_eq_getElem hjlen]
            rw [List.getD_eq_getElem?_getD, List.getElem?_eq_getElem (by omega : j + 0 < buf.length)]
            simp
          rw [this]
          have h10 : j + 1 + 0 = j + 1 := by omega
          rw [h10]
          simp
    · have hj2 : j = sl := by omega
      subst hj2
      rw [escLoop, if_neg hj, Nat.sub_self, escRunPad]
      simp

theorem escRunPad_nil : ∀ (n : Nat), escRunPad [] n = List.replicate n NUL := by
  intro n
  induction n with
  | zero => rfl
  | succ n ih => rw [escRunPad, ih]; rfl


theorem specResolve_pair (rest : List Char) :
    specResolve ('\\' :: '"' :: rest) = '"' :: specResolve rest := rfl

theorem specResolve_cons (c : Char) (rest : List Char)
    (h : ¬(c = '\\' ∧ rest.head? = some '"')) :
    specResolve (c :: rest) = c :: specResolve rest := by
  rw [specResolve.eq_def]
  split
  · rename_i heq
    exact absurd heq (by simp)
  · rename_i rest2 heq
    injection heq with h1 h2
    subst h1
    exact absurd ⟨rfl, by rw [h2]; rfl⟩ h
  · rename_i c2 rest2 hside heq
    injection heq with h1 h2
    subst h1
    subst h2
    rfl

theorem specResolve_length_le : ∀ (l : List Char), (specResolve l).length ≤ l.length := by
  intro l
  induction l using specResolve.induct with
  | case1 => simp [specResolve]
  | case2 rest ih => rw [specResolve_pair]; simp only [List.length_cons]; omega
  | case3 c rest h ih =>
    have hc : ¬(c = '\\' ∧ rest.head? = some '"') := by
      rintro ⟨rfl, hh⟩
      rcases rest with _ | ⟨r, rs⟩
      · simp at hh
      · simp at hh
        exact h rs rfl (by rw [hh])
    rw [specResolve_cons c rest hc]
    simp only [List.length_cons]
    omega

theorem specResolve_not_nul : ∀ (l : List Char), NUL ∉ l → NUL ∉ specResolve l := by
  intro l
  induction l using specResolve.induct with
  | case1 => simp [specResolve]
  | case2 rest ih =>
    intro hm
    rw [specResolve_pair]
    intro hmem
    rcases List.mem_cons.mp hmem with h1 | h1
    · exact absurd h1.symm (by decide)
    · exact ih (fun hx => hm (List.mem_cons_of_mem _ (List.mem_cons_of_mem _ hx))) h1
  | case3 c rest h ih =>
    intro hm
    have hc : ¬(c = '\\' ∧ rest.head? = some '"') := by
      rintro ⟨rfl, hh⟩
      rcases rest with _ | ⟨r, rs⟩
      · simp at hh
      · simp at hh
        exact h rs rfl (by rw [hh])
    rw [specResolve_cons c rest hc]
    intro hmem
    rcases List.mem_cons.mp hmem with h1 | h1
    · exact hm (h1 ▸ List.mem_cons_self _ _)
    · exact ih (fun hx => hm (List.mem_cons_of_mem _ hx)) h1

theorem escRunPad_single_nul : ∀ (n : Nat), escRunPad [NUL] n = List.replicate n NUL := by
  intro n
  induction n with
  | zero => rfl
  | succ n ih =>
    show escRunPad (NUL :: []) (n + 1) = _
    rw [escRunPad, if_neg (by decide), escRunPad_nil]
    rfl

theorem escRunPad_append_nul : ∀ (l : List Char), NUL ∉ l → ∀ (n : Nat),
    escRunPad (l ++ [NUL]) n
      = (specResolve l).take n ++ List.replicate (n - (specResolve l).length) NUL := by
  intro l
  induction l using specResolve.induct with
  | case1 =>
    intro _ n
    simp only [List.nil_append, specResolve, List.take_nil, List.length_nil,
      Nat.sub_zero]
    exact escRunPad_single_nul n
  | case2 rest ih =>
    intro hm n
    have hm2 : NUL ∉ rest :=
      fun h => hm (List.mem_cons_of_mem _ (List.mem_cons_of_mem _ h))
    cases n with
    | zero => rw [escRunPad]; simp
    | succ n =>
      show escRunPad ('\\' :: ('"' :: (rest ++ [NUL]))) (n + 1) = _
      rw [escRunPad, if_pos ⟨rfl, rfl⟩]
      simp only [List.tail_cons]
      rw [ih hm2 n, specResolve_pair]
      simp only [List.take_succ_cons, List.length_cons, List.cons_append]
      rw [Nat.succ_sub_succ]
  | case3 c rest h ih =>
    intro hm n
    have hm2 : NUL ∉ rest := fun hx => hm (List.mem_cons_of_mem _ hx)
    have hcn : c ≠ NUL := fun hx => hm (hx ▸ List.mem_cons_self _ _)
    have hc : ¬(c = '\\' ∧ rest.head? = some '"') := by
      rintro ⟨rfl, hh⟩
      rcases rest with _ | ⟨r, rs⟩
      · simp at hh
      · simp at hh
        exact h rs rfl (by rw [hh])
    have hc2 : ¬(c = '\\' ∧ (rest ++ [NUL]).head? = some '"') := by
      rintro ⟨rfl, hh⟩
      rcases rest with _ | ⟨r, rs⟩
      · exact absurd hh (by decide)
      · exact hc ⟨rfl, by simpa using hh⟩
    cases n with
    | zero => rw [escRunPad]; simp
    | succ n =>
      show escRunPad (c :: (rest ++ [NUL])) (n + 1) = _
      rw [escRunPad, if_neg hc2, ih hm2 n, specResolve_cons c rest hc]
      simp only [List.take_succ_cons, List.length_cons, List.cons_append]
      rw [Nat.succ_sub_succ]

theorem takeWhile_ne_nul_all {l : List Char} (h : NUL ∉ l) (t : List Char) :
    (l ++ t).takeWhile (fun c => c ≠ NUL) = l ++ t.takeWhile (fun c => c ≠ NUL) := by
  rw [List.takeWhile_append, if_pos]
  congr 1
  rw [List.takeWhile_eq_self_iff.mpr]
  intro a ha
  simp only [ne_eq, decide_not, Bool.not_eq_true', decide_eq_false_iff_not]
  intro hx
  exact h (hx ▸ ha)

theorem takeWhile_replicate_nul (k : Nat) :
    (List.replicate k NUL ++ [NUL]).takeWhile (fun c => c ≠ NUL) = [] := by
  cases k with
  | zero => rfl
  | succ k => rfl

/-- `shell_process_escape` on a NUL-free argument computes exactly the
spec's escape resolution. -/
theorem processEscapeArg_spec (l : List Char) (h : NUL ∉ l) :
    processEscapeArg l = specResolve l := by
  unfold processEscapeArg
  rw [escLoop_eq l.length l.length (l ++ [NUL]) 0 0 (Nat.zero_le _) (by omega)
    (by simp)]
  simp only [Nat.add_zero, Nat.zero_add, List.take_zero, List.drop_zero,
    List.nil_append, Nat.sub_zero]
  rw [List.drop_left, escRunPad_append_nul l h l.length,
    List.take_of_length_le (specResolve_length_le l)]
  unfold strVal
  rw [List.append_assoc, takeWhile_ne_nul_all (specResolve_not_nul l h),
    takeWhile_replicate_nul]
  simp

/-- Claim C7: on every NUL-free argument the in-place shift loop of
`shell_process_escape` performs exactly the spec's left-to-right collapse of
backslash–double-quote pairs into a lone double quote, leaving every other
backslash pair literal; on the spec's example, tokenizing `a\"b` yields the
single argument `a\"b` whose escape resolution is `a"b`. -/
theorem claim_C7_escape_resolution :
    (∀ (a : List Char), NUL ∉ a → processEscapeArg a = specResolve a) ∧
    parsedArgs (("a\\\"b").data) 10 = [("a\\\"b").data] ∧
    processEscape (parsedArgs (("a\\\"b").data) 10) = [("a\"b").data] := by
  refine ⟨fun a h => processEscapeArg_spec a h, by decide, by decide⟩

/-- Witness for claim C7: the resolver–spec agreement instantiated at the
concrete argument `a\"b`. -/
theorem claim_C7_witness :
    processEscapeArg (("a\\\"b").data) = specResolve (("a\\\"b").data) :=
  claim_C7_escape_resolution.1 (("a\\\"b").data) (by decide)

/-!  ## Claim C2 — history ring commit (confirmed) -/

theorem listSet_take2 {α : Type} (l : List α) (j : Nat) (a : α) :
    (l.set j a).take j = l.take j := by
  apply List.ext_getElem?
  intro i
  rw [List.getElem?_take, List.getElem?_take]
  by_cases hij : i < j
  · rw [if_pos hij, if_pos hij, List.getElem?_set, if_neg (Nat.ne_of_gt hij)]
  · rw [if_neg hij, if_neg hij]

theorem listSet_take_succ2 {α : Type} (l : List α) (j : Nat) (a : α)
    (h : j < l.length) : (l.set j a).take (j + 1) = l.take j ++ [a] := by
  rw [List.take_succ, listSet_take2, List.getElem?_set, if_pos rfl, if_pos h]
  rfl

/-- A store into the current slot does not change the stored history. -/
theorem histList_set_current (slots : List String) (cur old : Nat) (wr : Bool)
    (line : String) :
    histList ⟨slots.set cur line, cur, old, wr⟩ = histList ⟨slots, cur, old, wr⟩ := by
  unfold histList
  by_cases h : cur < old
  · simp only [h, if_pos]
    rw [List.drop_set, if_pos h, listSet_take2]
  · simp only [h, if_neg, if_false]
    rw [List.drop_set, if_neg h, listSet_take2]

theorem getD_set_ne (l : List String) (i j : Nat) (a d : String) (h : i ≠ j) :
    (l.set i a).getD j d = l.getD j d := by
  rw [List.getD_eq_getElem?_getD, List.getElem?_set, if_neg h,
    ← List.getD_eq_getElem?_getD]

theorem ringCommit_eq (N : Nat) (st : RingSt) (line : String) :
    ringCommit N st line =
      if line.length ≠ 0 ∧ (st.current = st.oldest ∨
          (st.slots.set st.current line).getD (prevSlot N st.current) "" ≠ line) then
        ⟨st.slots.set st.current line,
          if st.current = N - 1 then 0 else st.current + 1,
          if (if st.current = N - 1 then true else st.wrapped)
            then (if st.oldest = N - 1 then 0 else st.oldest + 1) else st.oldest,
          if st.current = N - 1 then true else st.wrapped⟩
      else ⟨st.slots.set st.current line, st.current, st.oldest, st.wrapped⟩ := by
  unfold ringCommit
  rfl

theorem string_length_ne (line : String) (h : line ≠ "") : line.length ≠ 0 := by
  intro hl
  rcases line with ⟨data⟩
  simp [String.length] at hl
  simp [hl] at h

theorem take_getLast (slots : List String) (cur : Nat) (h0 : 0 < cur)
    (hlt : cur ≤ slots.length) :
    (slots.take cur).getLast? = some (slots.getD (cur - 1) "") := by
  rw [List.getLast?_eq_getElem?, List.length_take]
  have hm : min cur slots.length = cur := Nat.min_eq_left hlt
  rw [hm, List.getElem?_take]
  rw [if_pos (by omega), List.getD_eq_getElem?_getD,
    List.getElem?_eq_getElem (by omega : cur - 1 < slots.length)]
  rfl

theorem ringCommit_refines (N : Nat) (hN : 2 ≤ N) (st : RingSt) (line : String)
    (hinv : RingInv N st) :
    histList (ringCommit N st line) = modelCommit (N - 1) (histList st) line ∧
      RingInv N (ringCommit N st line) := by
  obtain ⟨hlen, hcur, hold⟩ := hinv
  rcases st with ⟨slots, cur, old, wr⟩
  simp only at hlen hcur hold
  rw [ringCommit_eq]
  simp only
  cases wr with
  | false =>
    simp only [Bool.false_eq_true, if_false] at hold
    subst hold
    have hhist : histList ⟨slots, cur, 0, false⟩ = slots.take cur := by
      unfold histList
      rw [if_neg (Nat.not_lt_zero cur)]
      simp
    rw [hhist]
    by_cases hc0 : cur = 0
    · subst hc0
      by_cases hl : line = ""
      · have hg : ¬(line.length ≠ 0 ∧ ((0:Nat) = 0 ∨
            (slots.set 0 line).getD (prevSlot N 0) "" ≠ line)) := by simp [hl]
        rw [if_neg hg]
        unfold modelCommit
        have hm : line = "" ∨ (slots.take 0).getLast? = some line := Or.inl hl
        rw [if_pos hm]
        refine ⟨?_, ?_, ?_, ?_⟩
        · rw [histList_set_current, hhist]
        · simpa using hlen
        · simpa using hcur
        · simp
      · have hlen0 : line.length ≠ 0 := string_length_ne line hl
        have hne : ¬((0 : Nat) = N - 1) := by omega
        have hg : line.length ≠ 0 ∧ ((0:Nat) = 0 ∨
            (slots.set 0 line).getD (prevSlot N 0) "" ≠ line) :=
          ⟨hlen0, Or.inl rfl⟩
        rw [if_pos hg]
        simp only [if_neg hne, Bool.false_eq_true, if_false]
        unfold modelCommit
        have hm : ¬(line = "" ∨ (slots.take 0).getLast? = some line) := by
          simp [hl]
        rw [if_neg hm]
        have hm2 : ¬(N - 1 ≤ (slots.take 0).length) := by simp; omega
        rw [if_neg hm2]
        refine ⟨?_, ?_, ?_, ?_⟩
        · unfold histList
          simp only
          rw [if_neg (by omega : ¬0 + 1 < 0)]
          rw [List.drop_zero, Nat.sub_zero,
            listSet_take_succ2 slots 0 line (by omega)]
        · simpa using hlen
        · simp only
          omega
        · simp
    · -- cur > 0, not wrapped
      have hprev : prevSlot N cur = cur - 1 := by unfold prevSlot; rw [if_neg hc0]
      have hgetD : (slots.set cur line).getD (prevSlot N cur) ""
          = slots.getD (cur - 1) "" := by
        rw [hprev]
        exact getD_set_ne _ _ _ _ _ (by omega)
      have hlast : (slots.take cur).getLast? = some (slots.getD (cur - 1) "") :=
        take_getLast slots cur (by omega) (by omega)
      have hlentake : (slots.take cur).length = cur := by
        rw [List.length_take]
        omega
      by_cases hskip : line = "" ∨ slots.getD (cur - 1) "" = line
      · have hg : ¬(line.length ≠ 0 ∧ (cur = 0 ∨
            (slots.set cur line).getD (prevSlot N cur) "" ≠ line)) := by
          rintro ⟨hl0, hor⟩
          rcases hskip with h | h
          · exact hl0 (by simp [h])
          · rcases hor with h0 | hne2
            · exact hc0 h0
            · rw [hgetD] at hne2
              exact hne2 h
        rw [if_neg hg]
        unfold modelCommit
        have hm : line = "" ∨ (slots.take cur).getLast? = some line := by
          rcases hskip with h | h
          · exact Or.inl h
          · exact Or.inr (by rw [hlast, h])
        rw [if_pos hm]
        refine ⟨?_, ?_, ?_, ?_⟩
        · rw [histList_set_current, hhist]
        · simpa using hlen
        · simpa using hcur
        · simp
      · have hnskip := not_or.mp hskip
        have hlen0 : line.length ≠ 0 := string_length_ne line hnskip.1
        have hg : line.length ≠ 0 ∧ (cur = 0 ∨
            (slots.set cur line).getD (prevSlot N cur) "" ≠ line) :=
          ⟨hlen0, Or.inr (by rw [hgetD]; exact hnskip.2)⟩
        rw [if_pos hg]
        unfold modelCommit
        have hm : ¬(line = "" ∨ (slots.take cur).getLast? = some line) := by
          rintro (h | h)
          · exact hnskip.1 h
          · rw [hlast] at h
            exact hnskip.2 (Option.some.inj h)
        rw [if_neg hm]
        by_cases hce : cur = N - 1
        · simp only [if_pos hce, if_pos rfl, if_true]
          have hm2 : N - 1 ≤ (slots.take cur).length := by rw [hlentake, hce]
          rw [if_pos hm2]
          have hne0 : ¬((0:Nat) = N - 1) := by omega
          rw [if_neg hne0]
          have hslots1 : slots.set cur line = slots.take cur ++ [line] := by
            rw [List.set_eq_take_append_cons_drop, if_pos (show cur < slots.length by omega)]
            rw [List.drop_eq_nil_of_le (show slots.length ≤ cur + 1 by omega)]
          refine ⟨?_, ?_, ?_, ?_⟩
          · unfold histList
            simp only
            rw [if_pos (by omega : (0:Nat) < 0 + 1), hslots1]
            rw [List.drop_append_of_le_length (by rw [hlentake]; omega)]
            simp
          · simpa using hlen
          · simp only
            omega
          · simp only [if_pos rfl, if_true]
            exact (Nat.mod_eq_of_lt (by omega)).symm
        · simp only [if_neg hce, Bool.false_eq_true, if_false]
          have hm2 : ¬(N - 1 ≤ (slots.take cur).length) := by rw [hlentake]; omega
          rw [if_neg hm2]
          refine ⟨?_, ?_, ?_, ?_⟩
          · unfold histList
            simp only
            rw [if_neg (by omega : ¬cur + 1 < 0)]
            rw [List.drop_zero, Nat.sub_zero,
              listSet_take_succ2 slots cur line (by omega)]
          · simpa using hlen
          · simp only
            omega
          · simp
  | true =>
    simp only [if_pos rfl, if_true] at hold
    by_cases hce : cur = N - 1
    · have hold0 : old = 0 := by
        rw [hold, hce, Nat.sub_add_cancel (by omega : 1 ≤ N), Nat.mod_self]
      subst hold0
      have hc0 : cur ≠ 0 := by omega
      have hhist : histList ⟨slots, cur, 0, true⟩ = slots.take cur := by
        unfold histList
        rw [if_neg (Nat.not_lt_zero cur)]
        simp
      rw [hhist]
      have hprev : prevSlot N cur = cur - 1 := by unfold prevSlot; rw [if_neg hc0]
      have hgetD : (slots.set cur line).getD (prevSlot N cur) ""
          = slots.getD (cur - 1) "" := by
        rw [hprev]
        exact getD_set_ne _ _ _ _ _ (by omega)
      have hlast : (slots.take cur).getLast? = some (slots.getD (cur - 1) "") :=
        take_getLast slots cur (by omega) (by omega)
      have hlentake : (slots.take cur).length = cur := by
        rw [List.length_take]
        omega
      by_cases hskip : line = "" ∨ slots.getD (cur - 1) "" = line
      · have hg : ¬(line.length ≠ 0 ∧ (cur = 0 ∨
            (slots.set cur line).getD (prevSlot N cur) "" ≠ line)) := by
          rintro ⟨hl0, hor⟩
          rcases hskip with h | h
          · exact hl0 (by simp [h])
          · rcases hor with h0 | hne2
            · exact hc0 h0
            · rw [hgetD] at hne2
              exact hne2 h
        rw [if_neg hg]
        unfold modelCommit
        have hm : line = "" ∨ (slots.take cur).getLast? = some line := by
          rcases hskip with h | h
          · exact Or.inl h
          · exact Or.inr (by rw [hlast, h])
        rw [if_pos hm]
        refine ⟨?_, ?_, ?_, ?_⟩
        · rw [histList_set_current, hhist]
        · simpa using hlen
        · simpa using hcur
        · simp only [if_pos rfl, if_true]
          rw [hce, Nat.sub_add_cancel (by omega : 1 ≤ N), Nat.mod_self]
      · have hnskip := not_or.mp hskip
        have hlen0 : line.length ≠ 0 := string_length_ne line hnskip.1
        have hg : line.length ≠ 0 ∧ (cur = 0 ∨
            (slots.set cur line).getD (prevSlot N cur) "" ≠ line) :=
          ⟨hlen0, Or.inr (by rw [hgetD]; exact hnskip.2)⟩
        rw [if_pos hg]
        unfold modelCommit
        have hm : ¬(line = "" ∨ (slots.take cur).getLast? = some line) := by
          rintro (h | h)
          · exact hnskip.1 h
          · rw [hlast] at h
            exact hnskip.2 (Option.some.inj h)
        rw [if_neg hm]
        simp only [if_pos hce, if_pos rfl, if_true]
        have hm2 : N - 1 ≤ (slots.take cur).length := by rw [hlentake, hce]
        rw [if_pos hm2]
        have hne0 : ¬((0:Nat) = N - 1) := by omega
        rw [if_neg hne0]
        have hslots1 : slots.set cur line = slots.take cur ++ [line] := by
          rw [List.set_eq_take_append_cons_drop, if_pos (show cur < slots.length by omega)]
          rw [List.drop_eq_nil_of_le (show slots.length ≤ cur + 1 by omega)]
        refine ⟨?_, ?_, ?_, ?_⟩
        · unfold histList
          simp only
          rw [if_pos (by omega : (0:Nat) < 0 + 1), hslots1]
          rw [List.drop_append_of_le_length (by rw [hlentake]; omega)]
          simp
        · simpa using hlen
        · simp only
          omega
        · simp only [if_pos rfl, if_true]
          exact (Nat.mod_eq_of_lt (by omega)).symm
    · have hold2 : old = cur + 1 := by
        rw [hold]
        exact Nat.mod_eq_of_lt (by omega)
      subst hold2
      have hhist : histList ⟨slots, cur, cur + 1, true⟩
          = slots.drop (cur + 1) ++ slots.take cur := by
        unfold histList
        rw [if_pos (by omega : cur < cur + 1)]
      rw [hhist]
      have hgetD : (slots.set cur line).getD (prevSlot N cur) ""
          = slots.getD (prevSlot N cur) "" := by
        apply getD_set_ne
        unfold prevSlot
        by_cases hc0 : cur = 0 <;> simp [hc0] <;> omega
      have hlast : (slots.drop (cur + 1) ++ slots.take cur).getLast?
          = some (slots.getD (prevSlot N cur) "") := by
        by_cases hc0 : cur = 0
        · subst hc0
          unfold prevSlot
          rw [if_pos rfl]
          simp only [List.take_zero, List.append_nil]
          rw [List.getLast?_drop, if_neg (by omega)]
          rw [List.getLast?_eq_getElem?]
          rw [show slots.length - 1 = N - 1 by omega]
          rw [List.getD_eq_getElem?_getD,
            List.getElem?_eq_getElem (show N - 1 < slots.length by omega)]
          rfl
        · unfold prevSlot
          rw [if_neg hc0]
          rw [List.getLast?_append,
            take_getLast slots cur (by omega) (by omega)]
          rfl
      have hlenhist : (slots.drop (cur + 1) ++ slots.take cur).length = N - 1 := by
        rw [List.length_append, List.length_drop, List.length_take]
        omega
      by_cases hskip : line = "" ∨ slots.getD (prevSlot N cur) "" = line
      · have hg : ¬(line.length ≠ 0 ∧ (cur = cur + 1 ∨
            (slots.set cur line).getD (prevSlot N cur) "" ≠ line)) := by
          rintro ⟨hl0, hor⟩
          rcases hskip with h | h
          · exact hl0 (by simp [h])
          · rcases hor with h0 | hne2
            · omega
            · rw [hgetD] at hne2
              exact hne2 h
        rw [if_neg hg]
        unfold modelCommit
        have hm : line = "" ∨
            (slots.drop (cur + 1) ++ slots.take cur).getLast? = some line := by
          rcases hskip with h | h
          · exact Or.inl h
          · exact Or.inr (by rw [hlast, h])
        rw [if_pos hm]
        refine ⟨?_, ?_, ?_, ?_⟩
        · rw [histList_set_current, hhist]
        · simpa using hlen
        · simpa using hcur
        · simp only [if_pos rfl, if_true]
          rw [Nat.mod_eq_of_lt (by omega : cur + 1 < N)]
      · have hnskip := not_or.mp hskip
        have hlen0 : line.length ≠ 0 := string_length_ne line hnskip.1
        have hg : line.length ≠ 0 ∧ (cur = cur + 1 ∨
            (slots.set cur line).getD (prevSlot N cur) "" ≠ line) :=
          ⟨hlen0, Or.inr (by rw [hgetD]; exact hnskip.2)⟩
        rw [if_pos hg]
        unfold modelCommit
        have hm : ¬(line = "" ∨
            (slots.drop (cur + 1) ++ slots.take cur).getLast? = some line) := by
          rintro (h | h)
          · exact hnskip.1 h
          · rw [hlast] at h
            exact hnskip.2 (Option.some.inj h)
        rw [if_neg hm]
        have hm2 : N - 1 ≤ (slots.drop (cur + 1) ++ slots.take cur).length := by
          rw [hlenhist]
        rw [if_pos hm2]
        simp only [if_neg hce, if_pos rfl, if_true]
        by_cases hoe : cur + 1 = N - 1
        · simp only [if_pos hoe]
          have hdrop1 : slots.drop (cur + 1) = [slots.getD (cur + 1) ""] := by
            rw [List.drop_eq_getElem_cons (show cur + 1 < slots.length by omega)]
            rw [List.drop_eq_nil_of_le (show slots.length ≤ cur + 1 + 1 by omega)]
            have hx : slots.getD (cur + 1) "" = slots[cur + 1] := by
              rw [List.getD_eq_getElem?_getD,
                List.getElem?_eq_getElem (show cur + 1 < slots.length by omega)]
              rfl
            rw [hx]
          refine ⟨?_, ?_, ?_, ?_⟩
          · unfold histList
            simp only
            rw [if_neg (by omega : ¬cur + 1 < 0)]
            rw [List.drop_zero, Nat.sub_zero,
              listSet_take_succ2 slots cur line (by omega)]
            rw [hdrop1]
            simp
          · simpa using hlen
          · simp only
            omega
          · simp only [if_pos rfl, if_true]
            rw [show cur + 1 + 1 = N by omega, Nat.mod_self]
        · simp only [if_neg hoe]
          refine ⟨?_, ?_, ?_, ?_⟩
          · unfold histList
            simp only
            rw [if_pos (by omega : cur + 1 < cur + 1 + 1)]
            rw [List.drop_set, if_pos (by omega : cur < cur + 1 + 1)]
            rw [listSet_take_succ2 slots cur line (by omega)]
            rw [List.append_assoc]
            rw [List.drop_append_of_le_length
              (show 1 ≤ (slots.drop (cur + 1)).length by
                rw [List.length_drop]; omega)]
            rw [List.drop_drop]
          · simpa using hlen
          · simp only
            omega
          · simp only [if_pos rfl, if_true]
            exact (Nat.mod_eq_of_lt (by omega)).symm

theorem modelCommit_suffix (cap : Nat) (hcap : 1 ≤ cap) :
    ∀ (ls done : List String),
    (∀ s ∈ ls, s ≠ "") → List.Chain' (fun a b => a ≠ b) (done ++ ls) →
    List.foldl (modelCommit cap) (done.drop (done.length - cap)) ls
      = (done ++ ls).drop ((done ++ ls).length - cap) := by
  intro ls
  induction ls with
  | nil =>
    intro done _ _
    simp
  | cons x rest ih =>
    intro done hne hch
    rw [List.foldl_cons]
    have hx : x ≠ "" := hne x (List.mem_cons_self _ _)
    have hacc_last : (done.drop (done.length - cap)).getLast? = done.getLast? := by
      rcases done with _ | ⟨d, ds⟩
      · simp
      · rw [List.getLast?_drop, if_neg (by simp; omega)]
    have hnotdup : ¬(x = "" ∨ (done.drop (done.length - cap)).getLast? = some x) := by
      rintro (h | h)
      · exact hx h
      · rw [hacc_last] at h
        rcases List.chain'_append.mp hch with ⟨-, -, hmid⟩
        exact hmid x h x (by simp) rfl
    have hlacc : (done.drop (done.length - cap)).length
        = done.length - (done.length - cap) := List.length_drop _ _
    unfold modelCommit
    rw [if_neg hnotdup]
    have hre : done ++ x :: rest = (done ++ [x]) ++ rest := by
      rw [List.append_cons]
    by_cases hful : cap ≤ (done.drop (done.length - cap)).length
    · rw [if_pos hful]
      have hdc : cap ≤ done.length := by omega
      have hstep : (done.drop (done.length - cap) ++ [x]).drop 1
          = (done ++ [x]).drop ((done ++ [x]).length - cap) := by
        rw [List.drop_append_of_le_length (by omega)]
        rw [List.drop_drop]
        rw [List.length_append]
        rw [List.drop_append_of_le_length (by simp; omega)]
        have : done.length + [x].length - cap = done.length - cap + 1 := by
          simp; omega
        rw [this]
      rw [hstep, hre]
      exact ih (done ++ [x]) (fun s hs => hne s (List.mem_cons_of_mem _ hs))
        (hre ▸ hch)
    · rw [if_neg hful]
      have hdc : done.length < cap := by omega
      have hd0 : done.length - cap = 0 := by omega
      have hstep : done.drop (done.length - cap) ++ [x]
          = (done ++ [x]).drop ((done ++ [x]).length - cap) := by
        rw [hd0, List.drop_zero]
        have : (done ++ [x]).length - cap = 0 := by simp; omega
        rw [this, List.drop_zero]
      rw [hstep, hre]
      exact ih (done ++ [x]) (fun s hs => hne s (List.mem_cons_of_mem _ hs))
        (hre ▸ hch)

theorem ringInit_inv (N : Nat) (hN : 2 ≤ N) :
    RingInv N (ringInit N) ∧ histList (ringInit N) = [] := by
  refine ⟨⟨by simp [ringInit], by simp [ringInit]; omega, by simp [ringInit]⟩, ?_⟩
  unfold ringInit histList
  simp

theorem ring_fold_sim (N : Nat) (hN : 2 ≤ N) :
    ∀ (ls : List String) (st : RingSt), RingInv N st →
    histList (List.foldl (ringCommit N) st ls)
        = List.foldl (modelCommit (N - 1)) (histList st) ls ∧
      RingInv N (List.foldl (ringCommit N) st ls) := by
  intro ls
  induction ls with
  | nil => exact fun st h => ⟨rfl, h⟩
  | cons x rest ih =>
    intro st hinv
    rw [List.foldl_cons, List.foldl_cons]
    obtain ⟨h1, h2⟩ := ringCommit_refines N hN st x hinv
    obtain ⟨h3, h4⟩ := ih (ringCommit N st x) h2
    exact ⟨by rw [h3, h1], h4⟩

/-- Claim C2: committing any sequence of non-empty, consecutively-distinct
lines to the history ring of capacity `N` leaves exactly the most recent
`N - 1` of them, oldest first (FIFO eviction), and the stored history never
holds two adjacent identical entries. -/
theorem claim_C2_ring_fifo (N : Nat) (ls : List String) (hN : 2 ≤ N)
    (hne : ∀ s ∈ ls, s ≠ "") (hch : List.Chain' (fun a b => a ≠ b) ls) :
    histList (List.foldl (ringCommit N) (ringInit N) ls)
        = ls.drop (ls.length - (N - 1)) ∧
      List.Chain' (fun a b => a ≠ b)
        (histList (List.foldl (ringCommit N) (ringInit N) ls)) := by
  obtain ⟨hinv, hinit⟩ := ringInit_inv N hN
  obtain ⟨hsim, -⟩ := ring_fold_sim N hN ls (ringInit N) hinv
  have hmodel : List.foldl (modelCommit (N - 1)) [] ls
      = ls.drop (ls.length - (N - 1)) := by
    have := modelCommit_suffix (N - 1) (by omega) ls [] hne (by simpa using hch)
    simpa using this
  have hfin : histList (List.foldl (ringCommit N) (ringInit N) ls)
      = ls.drop (ls.length - (N - 1)) := by
    rw [hsim, hinit, hmodel]
  exact ⟨hfin, hfin ▸ List.Chain'.drop hch _⟩

/-- Witness for claim C2: four commits `a b a c` into a three-slot ring leave
the history `[a, c]` with no adjacent duplicates. -/
theorem claim_C2_ring_fifo_witness :
    histList (List.foldl (ringCommit 3) (ringInit 3) ["a", "b", "a", "c"])
        = ["a", "c"] ∧
      List.Chain' (fun a b => a ≠ b)
        (histList (List.foldl (ringCommit 3) (ringInit 3) ["a", "b", "a", "c"])) := by
  have h := claim_C2_ring_fifo 3 ["a", "b", "a", "c"] (by omega)
    (by intro s hs; fin_cases hs <;> decide)
    (by simp [List.chain'_cons, List.chain'_singleton])
  simpa using h

theorem getD_append_at (C : List Char) (x : Char) (X : List Char) (d : Char) :
    (C ++ x :: X).getD C.length d = x := by
  rw [List.getD_eq_getElem?_getD, List.getElem?_append_right (le_refl C.length)]
  simp

theorem set_append_at (C : List Char) (x v : Char) (X : List Char) :
    (C ++ x :: X).set C.length v = C ++ v :: X := by
  rw [List.set_append, if_neg (lt_irrefl _), Nat.sub_self]
  rfl

/-- Characterization of the `shell_parse` loop on a plain line: when the part
still to scan contains no NUL, quote or backslash (and the argument limit is
not reached), the loop NUL-terminates every space, counts one argument per
space plus one, and stores one `argv` pointer right after each space. -/
theorem parseLoop_plain : ∀ (todo C : List Char) (argc maxargs : Nat)
    (W : List (Nat × Nat)) (fuel L : Nat),
    C.length + todo.length = L →
    todo.length + 1 ≤ fuel →
    NUL ∉ todo → '"' ∉ todo → '\\' ∉ todo →
    argc + todo.count ' ' < maxargs →
    parseLoop maxargs (L + 1) fuel
        ⟨C ++ todo ++ [NUL], C.length, argc, false, false, W⟩
      = ⟨C ++ mutS todo ++ [NUL], L + 1, argc + todo.count ' ' + 1, false, false,
          W ++ spaceWrites todo C.length argc⟩ := by
  intro todo
  induction todo with
  | nil =>
    intro C argc maxargs W fuel L hL hfuel _ _ _ hargs
    simp only [List.length_nil, Nat.add_zero] at hL
    simp only [List.count_nil, Nat.add_zero] at hargs
    cases fuel with
    | zero => omega
    | succ fuel =>
      rw [parseLoop]
      simp only
      rw [if_pos (show C.length < L + 1 ∧ argc < maxargs from ⟨by omega, hargs⟩)]
      have hbuf : C ++ ([] : List Char) ++ [NUL] = C ++ NUL :: [] := by simp
      rw [hbuf, if_pos (getD_append_at C NUL [] NUL)]
      simp [mutS, spaceWrites]
  | cons c rest ih =>
    intro C argc maxargs W fuel L hL hfuel hnul hq hb hargs
    simp only [List.length_cons] at hL hfuel
    simp only [List.count_cons] at hargs
    cases fuel with
    | zero => omega
    | succ fuel =>
      have hcn : c ≠ NUL := fun h => hnul (h ▸ List.mem_cons_self _ _)
      have hcq : c ≠ '"' := fun h => hq (h ▸ List.mem_cons_self _ _)
      have hcb : c ≠ '\\' := fun h => hb (h ▸ List.mem_cons_self _ _)
      have hnul2 : NUL ∉ rest := fun h => hnul (List.mem_cons_of_mem _ h)
      have hq2 : '"' ∉ rest := fun h => hq (List.mem_cons_of_mem _ h)
      have hb2 : '\\' ∉ rest := fun h => hb (List.mem_cons_of_mem _ h)
      have hsplit : C ++ (c :: rest) ++ [NUL] = C ++ c :: (rest ++ [NUL]) := by
        simp
      have hread : (C ++ (c :: rest) ++ [NUL]).getD C.length NUL = c := by
        rw [hsplit]
        exact getD_append_at C c (rest ++ [NUL]) NUL
      rw [parseLoop]
      simp only
      rw [if_pos (show C.length < L + 1 ∧ argc < maxargs from
        ⟨by omega, by omega⟩)]
      rw [hread, if_neg hcn, if_neg hcb, if_neg hcq]
      by_cases hsp : c = ' '
      · rw [if_pos hsp]
        simp only [if_true]
        have hset : (C ++ (c :: rest) ++ [NUL]).set C.length NUL
            = (C ++ [NUL]) ++ rest ++ [NUL] := by
          rw [hsplit, set_append_at C c NUL (rest ++ [NUL])]
          simp
        have hrec := ih (C ++ [NUL]) (argc + 1) maxargs
          (W ++ [(argc + 1, C.length + 1)]) fuel L
          (by simp only [List.length_append, List.length_singleton]; omega)
          (by omega) hnul2 hq2 hb2
          (by subst hsp; simp at hargs; omega)
        simp only [List.length_append, List.length_singleton] at hrec
        rw [hset, hrec]
        subst hsp
        simp only [mutS, List.map_cons, if_pos rfl, spaceWrites,
          List.count_cons, PSt.mk.injEq]
        exact ⟨by simp, trivial, by simp <;> omega, trivial, trivial, by simp⟩
      · rw [if_neg hsp]
        have hassoc : C ++ (c :: rest) ++ [NUL] = (C ++ [c]) ++ rest ++ [NUL] := by
          simp
        have hrec := ih (C ++ [c]) argc maxargs W fuel L
          (by simp only [List.length_append, List.length_singleton]; omega)
          (by omega) hnul2 hq2 hb2
          (by simp [beq_eq_false_iff_ne.mpr hsp] at hargs; omega)
        simp only [List.length_append, List.length_singleton] at hrec
        rw [hassoc, hrec]
        have hbeq : (c == ' ') = false := beq_eq_false_iff_ne.mpr hsp
        simp only [mutS, List.map_cons, if_neg hsp, spaceWrites,
          List.count_cons, PSt.mk.injEq]
        exact ⟨by simp, trivial, by simp [hbeq] <;> omega, trivial, trivial, trivial⟩

theorem shellParse_plain (line : List Char) (maxargs : Nat)
    (hnul : NUL ∉ line) (hq : '"' ∉ line) (hb : '\\' ∉ line)
    (hargs : line.count ' ' < maxargs) :
    shellParse line maxargs
      = ⟨mutS line ++ [NUL], line.count ' ' + 1, (0, 0) :: spaceWrites line 0 0⟩ := by
  have h := parseLoop_plain line [] 0 maxargs [(0, 0)] (line.length + 2)
    line.length (by simp) (by omega) hnul hq hb (by omega)
  simp only [List.length_nil, List.nil_append] at h
  simp only [shellParse, h]
  simp [ParseOut.mk.injEq]

theorem spaceSplit_no_space (l : List Char) (h : ' ' ∉ l) : spaceSplit l = [l] := by
  induction l with
  | nil => rfl
  | cons c rest ih =>
    have hc : c ≠ ' ' := fun hx => h (hx ▸ List.mem_cons_self _ _)
    rw [spaceSplit, if_neg hc, ih (fun hx => h (List.mem_cons_of_mem _ hx))]

theorem mutS_no_space (l : List Char) : ' ' ∉ l → mutS l = l := by
  induction l with
  | nil => intro _; rfl
  | cons c rest ih =>
    intro h
    have hc : c ≠ ' ' := fun hx => h (hx ▸ List.mem_cons_self _ _)
    unfold mutS at ih ⊢
    rw [List.map_cons, if_neg hc, ih (fun hx => h (List.mem_cons_of_mem _ hx))]

theorem spaceWrites_no_space (l : List Char) : ∀ (i a : Nat), ' ' ∉ l →
    spaceWrites l i a = [] := by
  induction l with
  | nil => intro i a _; rfl
  | cons c rest ih =>
    intro i a h
    have hc : c ≠ ' ' := fun hx => h (hx ▸ List.mem_cons_self _ _)
    rw [spaceWrites, if_neg hc, ih _ _ (fun hx => h (List.mem_cons_of_mem _ hx))]

theorem spaceSplit_split (t0 : List Char) (rest : List Char) (h : ' ' ∉ t0) :
    spaceSplit (t0 ++ ' ' :: rest) = t0 :: spaceSplit rest := by
  induction t0 with
  | nil => simp [spaceSplit]
  | cons c ds ih =>
    have hc : c ≠ ' ' := fun hx => h (hx ▸ List.mem_cons_self _ _)
    rw [List.cons_append, spaceSplit, if_neg hc,
      ih (fun hx => h (List.mem_cons_of_mem _ hx))]

theorem mutS_split (t0 rest : List Char) (h : ' ' ∉ t0) :
    mutS (t0 ++ ' ' :: rest) = t0 ++ NUL :: mutS rest := by
  unfold mutS
  rw [List.map_append, List.map_cons, if_pos rfl]
  congr 1
  exact mutS_no_space t0 h

theorem spaceWrites_split (t0 rest : List Char) (h : ' ' ∉ t0) : ∀ (i a : Nat),
    spaceWrites (t0 ++ ' ' :: rest) i a
      = (a + 1, i + t0.length + 1) :: spaceWrites rest (i + t0.length + 1) (a + 1) := by
  induction t0 with
  | nil => intro i a; simp [spaceWrites]
  | cons c ds ih =>
    intro i a
    have hc : c ≠ ' ' := fun hx => h (hx ▸ List.mem_cons_self _ _)
    rw [List.cons_append, spaceWrites, if_neg hc,
      ih (fun hx => h (List.mem_cons_of_mem _ hx))]
    simp only [List.length_cons]
    have e1 : i + 1 + ds.length + 1 = i + (ds.length + 1) + 1 := by omega
    rw [e1]

theorem count_split (t0 rest : List Char) (h : ' ' ∉ t0) :
    (t0 ++ ' ' :: rest).count ' ' = rest.count ' ' + 1 := by
  rw [List.count_append, List.count_cons]
  have h0 : t0.count ' ' = 0 := List.count_eq_zero.mpr h
  simp [h0]

theorem spaceSplit_ne_nil (l : List Char) : spaceSplit l ≠ [] := by
  induction l with
  | nil => simp [spaceSplit]
  | cons c rest ih =>
    rw [spaceSplit]
    by_cases hc : c = ' '
    · simp [hc]
    · rw [if_neg hc]
      rcases hss : spaceSplit rest with _ | ⟨t, ts⟩ <;> simp

theorem spaceSplit_length (l : List Char) :
    (spaceSplit l).length = l.count ' ' + 1 := by
  induction l with
  | nil => rfl
  | cons c rest ih =>
    rw [spaceSplit, List.count_cons]
    by_cases hc : c = ' '
    · subst hc
      simp [ih]
    · rw [if_neg hc]
      have hbeq : (c == ' ') = false := beq_eq_false_iff_ne.mpr hc
      rcases hss : spaceSplit rest with _ | ⟨t, ts⟩
      · exact absurd hss (spaceSplit_ne_nil rest)
      · simp only [List.length_cons]
        rw [hss] at ih
        simp only [List.length_cons] at ih
        simp [hbeq, ih]

theorem exists_space_split (l : List Char) :
    ' ' ∉ l ∨ ∃ t0 rest, l = t0 ++ ' ' :: rest ∧ ' ' ∉ t0 := by
  induction l with
  | nil => exact Or.inl (by simp)
  | cons c rest ih =>
    by_cases hc : c = ' '
    · exact Or.inr ⟨[], rest, by rw [hc]; rfl, by simp⟩
    · rcases ih with h | ⟨t0, r, hr, ht⟩
      · refine Or.inl ?_
        intro hx
        rcases List.mem_cons.mp hx with h1 | h1
        · exact hc h1.symm
        · exact h h1
      · refine Or.inr ⟨c :: t0, r, by rw [hr]; rfl, ?_⟩
        intro hx
        rcases List.mem_cons.mp hx with h1 | h1
        · exact hc h1.symm
        · exact ht h1

theorem spaceWrites_shift (l : List Char) : ∀ (i a : Nat),
    spaceWrites l i a
      = (spaceWrites l 0 0).map (fun w => (w.1 + a, w.2 + i)) := by
  induction l with
  | nil => intro i a; rfl
  | cons c rest ih =>
    intro i a
    by_cases hc : c = ' '
    · subst hc
      rw [spaceWrites, if_pos rfl, spaceWrites, if_pos rfl]
      rw [List.map_cons]
      rw [ih (i + 1) (a + 1), ih 1 1, List.map_map]
      congr 1
      · refine Prod.ext ?_ ?_ <;> simp <;> omega
      · congr 1
        funext w
        simp only [Function.comp_apply]
        refine Prod.ext ?_ ?_ <;> simp <;> omega
    · rw [spaceWrites, if_neg hc, spaceWrites, if_neg hc]
      rw [ih (i + 1) a, ih 1 0, List.map_map]
      congr 1
      funext w
      simp only [Function.comp_apply]
      refine Prod.ext ?_ ?_ <;> simp <;> omega

theorem spaceWrites_idx_ge (l : List Char) : ∀ (i a : Nat) (w : Nat × Nat),
    w ∈ spaceWrites l i a → a + 1 ≤ w.1 := by
  induction l with
  | nil => intro i a w hw; simp [spaceWrites] at hw
  | cons c rest ih =>
    intro i a w hw
    by_cases hc : c = ' '
    · subst hc
      rw [spaceWrites, if_pos rfl] at hw
      rcases List.mem_cons.mp hw with h | h
      · subst h; simp
      · have := ih (i + 1) (a + 1) w h
        omega
    · rw [spaceWrites, if_neg hc] at hw
      exact ih (i + 1) a w hw

theorem argvAt_cons_ne (w : Nat × Nat) (ws : List (Nat × Nat)) (k : Nat)
    (h : w.1 ≠ k) : argvAt (w :: ws) k = argvAt ws k := by
  unfold argvAt
  rw [List.filter_cons, if_neg (by simpa using h)]

theorem spaceWrites_covers (l : List Char) : ∀ (i a k : Nat), a < k →
    k ≤ a + l.count ' ' →
    (spaceWrites l i a).filter (fun w => w.1 = k) ≠ [] := by
  induction l with
  | nil => intro i a k h1 h2; simp [List.count_nil] at h2; omega
  | cons c rest ih =>
    intro i a k h1 h2
    by_cases hc : c = ' '
    · subst hc
      rw [spaceWrites, if_pos rfl, List.filter_cons]
      by_cases hk : a + 1 = k
      · rw [if_pos (by simpa using hk)]
        simp
      · rw [if_neg (by simpa using hk)]
        refine ih (i + 1) (a + 1) k (by omega) ?_
        rw [List.count_cons] at h2
        simp at h2
        omega
    · rw [spaceWrites, if_neg hc]
      refine ih (i + 1) a k h1 ?_
      rw [List.count_cons] at h2
      have hbeq : (c == ' ') = false := beq_eq_false_iff_ne.mpr hc
      simp [hbeq] at h2
      exact h2

theorem getLastD_map_add (l : List Nat) (c : Nat) (h : l ≠ []) :
    (l.map (fun x => x + c)).getLastD 0 = l.getLastD 0 + c := by
  rw [List.getLastD_eq_getLast?, List.getLastD_eq_getLast?, List.getLast?_map]
  rcases hx : l.getLast? with _ | x
  · exact absurd (List.getLast?_eq_none_iff.mp hx) h
  · rfl

theorem argvAt_map_shift (W : List (Nat × Nat)) (a i k : Nat)
    (hex : W.filter (fun w => w.1 = k) ≠ []) :
    argvAt (W.map (fun w => (w.1 + a, w.2 + i))) (k + a) = argvAt W k + i := by
  unfold argvAt
  rw [List.filter_map]
  have hfc : ((fun w : Nat × Nat => decide (w.1 = k + a)) ∘
      (fun w : Nat × Nat => (w.1 + a, w.2 + i)))
      = (fun w : Nat × Nat => decide (w.1 = k)) := by
    funext w
    simp only [Function.comp_apply]
    simp [Nat.add_right_cancel_iff]
  rw [hfc]
  rw [List.map_map]
  have hmm : ((fun w : Nat × Nat => w.2) ∘ (fun w : Nat × Nat => (w.1 + a, w.2 + i)))
      = (fun x : Nat × Nat => x.2 + i) := by
    funext w
    rfl
  rw [hmm]
  have hmm2 : List.map (fun x : Nat × Nat => x.2 + i) (W.filter (fun w => w.1 = k))
      = ((W.filter (fun w => w.1 = k)).map (fun w => w.2)).map (fun x => x + i) := by
    rw [List.map_map]
    rfl
  rw [hmm2]
  refine getLastD_map_add _ i ?_
  simpa using hex

theorem spaceWrites_filter_le (l : List Char) (i a k : Nat) (hk : k ≤ a) :
    (spaceWrites l i a).filter (fun w => w.1 = k) = [] := by
  rw [List.filter_eq_nil_iff]
  intro w hw
  have := spaceWrites_idx_ge l i a w hw
  simp only [decide_eq_true_eq]
  omega

theorem argvAt_head_zero (l : List Char) (i a : Nat) :
    argvAt ((0, 0) :: spaceWrites l i a) 0 = 0 := by
  unfold argvAt
  rw [List.filter_cons, if_pos (by simp), spaceWrites_filter_le l i a 0 (Nat.zero_le a)]
  rfl

theorem strVal_prefix (t0 M : List Char) (h : NUL ∉ t0) :
    strVal (t0 ++ NUL :: M) = t0 := by
  unfold strVal
  rw [takeWhile_ne_nul_all h (NUL :: M)]
  simp [List.takeWhile]

theorem argvAt_line_succ (t0 rest : List Char) (h : ' ' ∉ t0) (k : Nat)
    (hk : k ≤ rest.count ' ') :
    argvAt ((0, 0) :: spaceWrites (t0 ++ ' ' :: rest) 0 0) (k + 1)
      = argvAt ((0, 0) :: spaceWrites rest 0 0) k + (t0.length + 1) := by
  rw [spaceWrites_split t0 rest h 0 0]
  simp only [Nat.zero_add]
  rw [argvAt_cons_ne (0, 0) _ (k + 1) (by simp)]
  cases k with
  | zero =>
    rw [argvAt_head_zero]
    unfold argvAt
    simp only [Nat.zero_add]
    rw [List.filter_cons, if_pos (by simp),
      spaceWrites_filter_le rest (t0.length + 1) 1 1 (le_refl 1)]
    simp
  | succ j =>
    rw [argvAt_cons_ne (1, t0.length + 1) _ (j + 1 + 1) (by simp)]
    rw [argvAt_cons_ne (0, 0) _ (j + 1) (by simp)]
    rw [spaceWrites_shift rest (t0.length + 1) 1]
    have hcov := spaceWrites_covers rest 0 0 (j + 1) (by omega) (by omega)
    have := argvAt_map_shift (spaceWrites rest 0 0) 1 (t0.length + 1)
      (j + 1) hcov
    rw [this]

theorem drop_append_len (a b : List Char) (n : Nat) :
    (a ++ b).drop (a.length + n) = b.drop n := by
  rw [← List.drop_drop, List.drop_left]

theorem token_extract_aux (n : Nat) : ∀ (line : List Char), line.length ≤ n →
    NUL ∉ line → ∀ k, k ≤ line.count ' ' →
    strVal ((mutS line ++ [NUL]).drop (argvAt ((0, 0) :: spaceWrites line 0 0) k))
      = (spaceSplit line).getD k [] := by
  induction n with
  | zero =>
    intro line hlen hnul k hk
    have hnil : line = [] := List.eq_nil_of_length_eq_zero (Nat.le_zero.mp hlen)
    subst hnil
    have hk0 : k = 0 := by simpa using hk
    subst hk0
    rfl
  | succ n ih =>
    intro line hlen hnul k hk
    rcases exists_space_split line with hns | ⟨t0, rest, heq, hsp⟩
    · have hc0 : line.count ' ' = 0 := List.count_eq_zero.mpr hns
      have hk0 : k = 0 := by omega
      subst hk0
      rw [argvAt_head_zero, mutS_no_space line hns, spaceSplit_no_space line hns]
      simp only [List.drop_zero, List.getD_cons_zero]
      exact strVal_prefix line [] hnul
    · subst heq
      have hnul0 : NUL ∉ t0 := fun hx => hnul (List.mem_append.mpr (Or.inl hx))
      have hnulr : NUL ∉ rest :=
        fun hx => hnul (List.mem_append.mpr (Or.inr (List.mem_cons_of_mem _ hx)))
      have hcnt := count_split t0 rest hsp
      rw [spaceSplit_split t0 rest hsp, mutS_split t0 rest hsp]
      cases k with
      | zero =>
        rw [argvAt_head_zero]
        simp only [List.drop_zero, List.getD_cons_zero]
        have hre : (t0 ++ NUL :: mutS rest) ++ [NUL]
            = t0 ++ NUL :: (mutS rest ++ [NUL]) := by simp
        rw [hre]
        exact strVal_prefix t0 _ hnul0
      | succ j =>
        have hj : j ≤ rest.count ' ' := by omega
        rw [argvAt_line_succ t0 rest hsp j hj]
        have hre : (t0 ++ NUL :: mutS rest) ++ [NUL]
            = (t0 ++ [NUL]) ++ (mutS rest ++ [NUL]) := by simp
        rw [hre]
        have hix : argvAt ((0, 0) :: spaceWrites rest 0 0) j + (t0.length + 1)
            = (t0 ++ [NUL]).length + argvAt ((0, 0) :: spaceWrites rest 0 0) j := by
          simp only [List.length_append, List.length_cons, List.length_nil]
          omega
        rw [hix, drop_append_len, List.getD_cons_succ]
        have hlr : rest.length ≤ n := by
          simp only [List.length_append, List.length_cons] at hlen
          omega
        exact ih rest hlr hnulr j hj

theorem parsedArgs_plain (line : List Char) (maxargs : Nat)
    (hnul : NUL ∉ line) (hq : '"' ∉ line) (hb : '\\' ∉ line)
    (hargs : line.count ' ' < maxargs) :
    parsedArgs line maxargs = spaceSplit line := by
  unfold parsedArgs
  rw [shellParse_plain line maxargs hnul hq hb hargs]
  apply List.ext_getElem
  · simp [spaceSplit_length line]
  · intro i h1 h2
    simp only [List.getElem_map, List.getElem_range]
    have hi : i ≤ line.count ' ' := by
      simp only [List.length_map, List.length_range] at h1
      omega
    have hx := token_extract_aux line.length line (le_refl _) hnul i hi
    rw [hx, List.getD_eq_getElem (spaceSplit line) ([]) h2]

/-- Claim C8: for every input line the tokenizer splits on spaces outside
quoted spans; on quote- and backslash-free lines (with room in `argv`) the
arguments are exactly the space-separated fields, and on the spec's quoted
example `foo "bar baz" qux` the three arguments are `foo`, `bar baz`, `qux`
in order, each unescaped double quote removed from the text. -/
theorem claim_C8_tokenizer (line : List Char) (maxargs : Nat)
    (hnul : NUL ∉ line) (hq : '"' ∉ line) (hb : '\\' ∉ line)
    (hargs : line.count ' ' < maxargs) :
    parsedArgs line maxargs = spaceSplit line
      ∧ parsedArgs (("foo \"bar baz\" qux").data) 10
          = [("foo").data, ("bar baz").data, ("qux").data] :=
  ⟨parsedArgs_plain line maxargs hnul hq hb hargs, by decide⟩

/-- Witness for C8: the theorem applied to the concrete line `ab cd e` with
ten argument slots. -/
theorem claim_C8_tokenizer_witness :
    parsedArgs (("ab cd e").data) 10 = spaceSplit (("ab cd e").data)
      ∧ parsedArgs (("foo \"bar baz\" qux").data) 10
          = [("foo").data, ("bar baz").data, ("qux").data] :=
  claim_C8_tokenizer (("ab cd e").data) 10 (by decide) (by decide) (by decide)
    (by decide)

end ShellC
